import Mathlib

/-!
# Verification of the `SteamSizeOnDiskFixer` manifest text-patching engine

This development gives a shallow embedding of the text-level core of
`SteamSizeOnDiskFixer.py`:

* `parse_acf` — the regex scan `"([^"]+)"\s+"([^"]+)"` collected into a
  Python dict (later matches overwrite earlier ones);
* `update_acf` — the mutator: if the literal substring `"SizeOnDisk"`
  occurs in the text, `re.sub` with pattern `("SizeOnDisk"\s*")-?\d+(")`
  and replacement `group(1) + str(n) + group(2)` (a global replace);
  otherwise `re.sub` with the end-anchored closing-brace pattern,
  inserting a tab-indented pair before the final brace;
* `backup_acf` — the backup-before-write guard;
* the per-manifest batch loop of `main`.

Texts are modeled as `List Char`.  The Python regex classes `\s` and `\d`
are modeled over their ASCII subsets (the manifests are ASCII), and the
greedy runs of the patterns are deterministic for these patterns (a run of
whitespace can never end in a quote, a run of digits can never end in a
quote), so each pattern is embedded as a first-match function with maximal
`takeWhile` runs and no backtracking.  Scans recurse on a length-sized
fuel so that every definition evaluates by kernel reduction.
-/

/-- ASCII subset of Python's `\s` class for `str` patterns. -/
def isPySpace (c : Char) : Bool :=
  c = ' ' || c = '\t' || c = '\n' || c = '\r' || c = '\x0b' || c = '\x0c'

/-- ASCII subset of Python's `\d` class for `str` patterns. -/
def isPyDigit (c : Char) : Bool :=
  '0' ≤ c && c ≤ '9'

/-- The decimal rendering of a byte count, modeling Python's
`f-string` formatting of the nonnegative int `new_size_bytes`. -/
def decDigits (n : Nat) : List Char :=
  Nat.toDigits 10 n

/-- The quoted key literal searched for by `update_acf`:
the Python expression checks `'"SizeOnDisk"' in content`. -/
def keyLit : List Char :=
  ['"', 'S', 'i', 'z', 'e', 'O', 'n', 'D', 'i', 's', 'k', '"']

/-- The bare key name, as it appears as a parsed field key. -/
def sizeName : List Char :=
  ['S', 'i', 'z', 'e', 'O', 'n', 'D', 'i', 's', 'k']

/-- Python's substring test `pat in s`. -/
def hasSub (pat s : List Char) : Bool :=
  s.tails.any (fun t => pat.isPrefixOf t)

/-- Consume the optional leading minus sign of the value pattern `-?`. -/
def stripNeg (u : List Char) : List Char :=
  match u with
  | c :: u' => if c = '-' then u' else u
  | [] => []

/-- One attempt of the value-replacement pattern
`("SizeOnDisk"\s*")-?\d+(")` at the head of `s`.  On success, returns the
text captured by group 1 (key literal, whitespace run, opening quote of
the value) and the remainder of the text after the whole match; group 2
is always the single closing quote.  The greedy runs `\s*` and `\d+` are
deterministic for this pattern (see the header comment), so they are
maximal `takeWhile` runs. -/
def tryMatchSize (s : List Char) : Option (List Char × List Char) :=
  if keyLit.isPrefixOf s then
    let t := s.drop keyLit.length
    let ws := t.takeWhile isPySpace
    let r := t.dropWhile isPySpace
    if r.head? = some '"' then
      let u1 := stripNeg r.tail
      let ds := u1.takeWhile isPyDigit
      let r2 := u1.dropWhile isPyDigit
      if ds ≠ [] ∧ r2.head? = some '"' then
        some (keyLit ++ ws ++ ['"'], r2.tail)
      else none
    else none
  else none

/-- The shape of a successful match of the value-replacement pattern at
the head of a text. -/
def MatchShape (s : List Char) (ws sgn ds tail : List Char) : Prop :=
  s = keyLit ++ ws ++ '"' :: (sgn ++ ds ++ '"' :: tail) ∧
    ws.all isPySpace = true ∧ (sgn = [] ∨ sgn = ['-']) ∧
    ds ≠ [] ∧ ds.all isPyDigit = true

/-- Fuel-driven global substitution of the value-replacement pattern,
mirroring `re.sub`'s left-to-right non-overlapping scan: on a match, emit
`group(1) + str(n) + group(2)` and resume after the match; otherwise copy
one character and advance. -/
def subSizeF (n : Nat) : Nat → List Char → List Char
  | 0, s => s
  | _ + 1, [] => []
  | fuel + 1, c :: rest =>
    match tryMatchSize (c :: rest) with
    | some (g, after) => g ++ decDigits n ++ '"' :: subSizeF n fuel after
    | none => c :: subSizeF n fuel rest

/-- `re.sub(r'("SizeOnDisk"\s*")-?\d+(")', repl, content)`. -/
def subSize (n : Nat) (s : List Char) : List Char :=
  subSizeF n s.length s

/-- Number of matches found by the scan (the number of replacements
`re.sub` performs). -/
def countMatchesF : Nat → List Char → Nat
  | 0, _ => 0
  | _ + 1, [] => 0
  | fuel + 1, c :: rest =>
    match tryMatchSize (c :: rest) with
    | some (_, after) => countMatchesF fuel after + 1
    | none => countMatchesF fuel rest

def countMatches (s : List Char) : Nat :=
  countMatchesF s.length s

/-- The replacement text of the insertion branch:
`f'\t"SizeOnDisk"\t"{new_size_bytes}"\n\x7d'`. -/
def insStr (n : Nat) : List Char :=
  '\t' :: (keyLit ++ '\t' :: '"' :: (decDigits n ++ '"' :: '\n' :: ['}']))

/-- `re.sub(r'\x7d\s*$', ..., content)`: the pattern matches the last
closing brace of the text provided only whitespace follows it, and the
greedy `\s*` extends the match to the end of the text, so the whole
tail from that brace on is replaced.  Scanning left to right, the first
position where the pattern can match is that final brace (any earlier
brace is followed by the final brace itself, which is not whitespace). -/
def insertSize (n : Nat) : List Char → List Char
  | [] => []
  | c :: rest =>
    if c = '}' ∧ rest.all isPySpace = true then insStr n
    else c :: insertSize n rest

/-- The text transformation performed by `update_acf` between reading the
manifest and writing it back. -/
def update_acf (n : Nat) (s : List Char) : List Char :=
  if hasSub keyLit s then subSize n s else insertSize n s

/-- The condition under which the insertion pattern finds a match: the
text ends in a closing brace followed only by whitespace. -/
def BraceShape (s : List Char) : Prop :=
  ∃ pre w, s = pre ++ '}' :: w ∧ w.all isPySpace = true

/-- Negation of the character class `[^"]` of the parser pattern. -/
def notQuote (c : Char) : Bool :=
  c ≠ '"'

/-- One attempt of the parser pattern `"([^"]+)"\s+"([^"]+)"` at the head
of `s`: a quoted nonempty key, at least one whitespace character, and a
quoted nonempty value.  On success, returns the key, the value, and the
remainder after the whole match.  The greedy runs are deterministic for
this pattern (a run of non-quotes must be closed by a quote; a run of
whitespace must be followed by a quote). -/
def tryMatchPair (s : List Char) : Option (List Char × List Char × List Char) :=
  if s.head? = some '"' then
    let k := s.tail.takeWhile notQuote
    let r1 := s.tail.dropWhile notQuote
    if k ≠ [] ∧ r1.head? = some '"' then
      let ws := r1.tail.takeWhile isPySpace
      let r2 := r1.tail.dropWhile isPySpace
      if ws ≠ [] ∧ r2.head? = some '"' then
        let v := r2.tail.takeWhile notQuote
        let r3 := r2.tail.dropWhile notQuote
        if v ≠ [] ∧ r3.head? = some '"' then
          some (k, v, r3.tail)
        else none
      else none
    else none
  else none

/-- The shape of a successful match of the parser pattern at the head of
a text. -/
def PairShape (s k ws v w : List Char) : Prop :=
  s = '"' :: (k ++ '"' :: (ws ++ '"' :: (v ++ '"' :: w))) ∧
    k ≠ [] ∧ k.all notQuote = true ∧ ws ≠ [] ∧ ws.all isPySpace = true ∧
    v ≠ [] ∧ v.all notQuote = true

/-- Fuel-driven scan of `re.finditer` for the parser pattern, collecting
the key/value pairs in scan order. -/
def pairsOfF : Nat → List Char → List (List Char × List Char)
  | 0, _ => []
  | _ + 1, [] => []
  | fuel + 1, c :: rest =>
    match tryMatchPair (c :: rest) with
    | some (k, v, w) => (k, v) :: pairsOfF fuel w
    | none => pairsOfF fuel rest

/-- The key/value pairs matched by `re.finditer(r'"([^"]+)"\s+"([^"]+)"', text)`
in scan order. -/
def pairsOf (s : List Char) : List (List Char × List Char) :=
  pairsOfF s.length s

/-- A clean scan: every character the scan skips over without a match is
not a double quote.  Texts whose quotes all belong to complete matched
pairs satisfy this. -/
def scanCleanF : Nat → List Char → Bool
  | 0, _ => true
  | _ + 1, [] => true
  | fuel + 1, c :: rest =>
    match tryMatchPair (c :: rest) with
    | some (_, _, w) => scanCleanF fuel w
    | none => !(c = '"') && scanCleanF fuel rest

def scanClean (s : List Char) : Bool :=
  scanCleanF s.length s

/-- One step of building a Python dict: inserting an existing key
overwrites its value in place, a new key is appended. -/
def dictInsert (d : List (List Char × List Char)) (k v : List Char) :
    List (List Char × List Char) :=
  if d.any (fun p => p.1 = k) then
    d.map (fun p => if p.1 = k then (k, v) else p)
  else
    d ++ [(k, v)]

/-- Lookup in the dict (keys are unique by construction, so the first
hit is the entry). -/
def dictGet (d : List (List Char × List Char)) (k : List Char) : Option (List Char) :=
  (d.find? (fun p => p.1 = k)).map (fun p => p.2)

/-- The flat mapping built by `parse_acf`'s dict comprehension
`\x7bm.group(1): m.group(2) for m in re.finditer(...)\x7d`: the matches in
scan order, inserted left to right with overwrite-on-repeat. -/
def parse_acf (s : List Char) : List (List Char × List Char) :=
  (pairsOf s).foldl (fun d p => dictInsert d p.1 p.2) []

/-- Specification-side description of the mapping: the value of the
last match for a key, in scan order ("later matches for the same key
overwrite earlier ones"). -/
def lastVal (l : List (List Char × List Char)) (k : List Char) : Option (List Char) :=
  ((l.filter (fun p => p.1 = k)).getLast?).map (fun p => p.2)

def orO (a b : Option (List Char)) : Option (List Char) :=
  match a with
  | some v => some v
  | none => b

/-- A file system snapshot: each path maps to a file's content or to
nothing. -/
def FS : Type :=
  String → Option (List Char)

/-- Writing a file. -/
def setFile (fs : FS) (p : String) (c : List Char) : FS :=
  fun q => if q = p then some c else fs q

inductive BackupOutcome where
  | created
  | alreadyExists
deriving DecidableEq

/-- The backup guard of `backup_acf`: copy `p` to `p + ".bak"` only when
the backup does not already exist (`if not os.path.exists(backup_path)`),
and never touch an existing backup.  `shutil.copy2` raises when the
source is missing, modeled by `none`. -/
def backup_acf (fs : FS) (p : String) : Option (FS × BackupOutcome) :=
  match fs (p ++ ".bak") with
  | some _ => some (fs, BackupOutcome.alreadyExists)
  | none =>
    match fs p with
    | some c => some (setFile fs (p ++ ".bak") c, BackupOutcome.created)
    | none => none

/-- Per-manifest data as seen by the batch loop of `main`: the result of
`parse_acf` (with `none` marking a read that raises, e.g. `IOError`),
whether the game folder exists, and whether the write in `update_acf`
succeeds. -/
structure AcfFile where
  parseOk : Option (List (List Char × List Char))
  folderPresent : Bool
  writeOk : Bool

inductive Report where
  | updated
  | noInstallDir
  | folderMissing
deriving DecidableEq

inductive BatchErr where
  | ioError
deriving DecidableEq

def installdirKey : List Char :=
  ['i', 'n', 's', 't', 'a', 'l', 'l', 'd', 'i', 'r']

/-- One iteration of the loop body of `main` for a manifest file:
reading and parsing may raise; a missing or empty `installdir` prints a
message and continues; a missing game folder prints a message and
continues; otherwise the file is updated, and the write may raise.
`main` contains no try/except, so a raised error propagates. -/
def processAcf (f : AcfFile) : Except BatchErr Report :=
  match f.parseOk with
  | none => Except.error BatchErr.ioError
  | some fields =>
    match dictGet fields installdirKey with
    | none => Except.ok Report.noInstallDir
    | some d =>
      if d = [] then Except.ok Report.noInstallDir
      else if f.folderPresent then
        if f.writeOk then Except.ok Report.updated
        else Except.error BatchErr.ioError
      else Except.ok Report.folderMissing

/-- The batch loop of `main` over the manifest files of a library:
reports accumulate per file, and an uncaught error ends the loop — the
remaining files are not processed. -/
def mainBatch : List AcfFile → List Report × Option BatchErr
  | [] => ([], none)
  | f :: rest =>
    match processAcf f with
    | Except.error e => ([], some e)
    | Except.ok r => ((r :: (mainBatch rest).1, (mainBatch rest).2))

/-- One occurrence of the size field, as laid out in the text: the
whitespace after the key, the optional sign and the digits of the stored
value, and the separating text before the next occurrence. -/
structure SizeOcc where
  ws : List Char
  sgn : List Char
  ds : List Char
  sep : List Char

/-- A text made of occurrences of the size field separated by filler. -/
def buildOccs : List SizeOcc → List Char
  | [] => []
  | o :: rest => keyLit ++ o.ws ++ '"' :: (o.sgn ++ o.ds ++ '"' :: (o.sep ++ buildOccs rest))

/-- The same text with every stored value replaced by the new value. -/
def buildOccsNew (n : Nat) : List SizeOcc → List Char
  | [] => []
  | o :: rest => keyLit ++ o.ws ++ '"' :: (decDigits n ++ '"' :: (o.sep ++ buildOccsNew n rest))

/-- Well-formed occurrences: each field is shaped like the pattern and
the separators contain no further match. -/
def GoodOccs : List SizeOcc → Prop
  | [] => True
  | o :: rest =>
    (o.ws.all isPySpace = true ∧ (o.sgn = [] ∨ o.sgn = ['-']) ∧ o.ds ≠ [] ∧
      o.ds.all isPyDigit = true ∧
      (∀ x, x <:+ o.sep → x ≠ [] → tryMatchSize (x ++ buildOccs rest) = none)) ∧
    GoodOccs rest

def wfs : FS :=
  fun q => if q = "game.acf" then some ['x'] else none

theorem isPyDigit_ne_quote {c : Char} (h : isPyDigit c = true) : c ≠ '"' := by
  rintro rfl; exact absurd h (by decide)

theorem isPyDigit_ne_minus {c : Char} (h : isPyDigit c = true) : c ≠ '-' := by
  rintro rfl; exact absurd h (by decide)

theorem isPySpace_cases {c : Char} (h : isPySpace c = true) :
    c = ' ' ∨ c = '\t' ∨ c = '\n' ∨ c = '\r' ∨ c = '\x0b' ∨ c = '\x0c' := by
  simpa [isPySpace, or_assoc] using h

theorem isPyDigit_not_space {c : Char} (h : isPyDigit c = true) : isPySpace c = false := by
  by_contra hs
  simp only [Bool.not_eq_false] at hs
  rcases isPySpace_cases hs with rfl | rfl | rfl | rfl | rfl | rfl <;>
    exact absurd h (by decide)

theorem isPySpace_ne_quote {c : Char} (h : isPySpace c = true) : c ≠ '"' := by
  rintro rfl; exact absurd h (by decide)

theorem isPySpace_ne_rbrace {c : Char} (h : isPySpace c = true) : c ≠ '}' := by
  rintro rfl; exact absurd h (by decide)

theorem toDigitsCore_all_digit (fuel n : Nat) (ds : List Char)
    (hds : ds.all isPyDigit = true) :
    (Nat.toDigitsCore 10 fuel n ds).all isPyDigit = true := by
  induction fuel generalizing n ds with
  | zero => simpa [Nat.toDigitsCore] using hds
  | succ fuel ih =>
    have hfin : ∀ k : Fin 10, isPyDigit (Nat.digitChar k.val) = true := by decide
    have hdig : isPyDigit (Nat.digitChar (n % 10)) = true :=
      hfin ⟨n % 10, Nat.mod_lt _ (by omega)⟩
    simp only [Nat.toDigitsCore]
    split
    · simpa [List.all_cons, hdig] using hds
    · exact ih (n / 10) _ (by simpa [List.all_cons, hdig] using hds)

theorem toDigitsCore_length_ge (fuel n : Nat) (ds : List Char) :
    ds.length ≤ (Nat.toDigitsCore 10 fuel n ds).length := by
  induction fuel generalizing n ds with
  | zero => simp [Nat.toDigitsCore]
  | succ fuel ih =>
    simp only [Nat.toDigitsCore]
    split
    · simp
    · exact le_trans (by simp) (ih (n / 10) _)

theorem decDigits_all_digit (n : Nat) : (decDigits n).all isPyDigit = true :=
  toDigitsCore_all_digit _ _ _ rfl

theorem decDigits_ne_nil (n : Nat) : decDigits n ≠ [] := by
  have h : 1 ≤ (decDigits n).length := by
    unfold decDigits Nat.toDigits
    simp only [Nat.toDigitsCore]
    split
    · simp
    · exact le_trans (by simp) (toDigitsCore_length_ge _ _ _)
  intro hnil
  rw [hnil] at h
  simp at h

theorem hasSub_iff_found {pat s : List Char} : hasSub pat s = true ↔ pat <:+: s := by
  unfold hasSub
  rw [List.any_eq_true]
  constructor
  · rintro ⟨t, ht, hp⟩
    rw [List.mem_tails _ _] at ht
    rw [List.isPrefixOf_iff_prefix] at hp
    exact List.infix_iff_prefix_suffix.2 ⟨t, hp, ht⟩
  · intro h
    obtain ⟨t, hp, ht⟩ := List.infix_iff_prefix_suffix.1 h
    exact ⟨t, (List.mem_tails _ _).2 ht, List.isPrefixOf_iff_prefix.2 hp⟩

theorem stripNeg_minus (u : List Char) : stripNeg ('-' :: u) = u := by
  simp [stripNeg]

theorem stripNeg_of_head_ne {u : List Char}
    (h : ∀ u', u ≠ '-' :: u') : stripNeg u = u := by
  match u with
  | [] => rfl
  | c :: u' =>
    have hc : c ≠ '-' := fun hc => h u' (by rw [hc])
    simp [stripNeg, hc]

theorem takeWhile_append_of_all {p : Char → Bool} {l : List Char} {c : Char} {r : List Char}
    (hl : l.all p = true) (hc : p c = false) :
    (l ++ c :: r).takeWhile p = l := by
  induction l with
  | nil => simp [List.takeWhile_cons, hc]
  | cons a l ih =>
    simp only [List.all_cons, Bool.and_eq_true] at hl
    simp [List.takeWhile_cons, hl.1, ih hl.2]

theorem dropWhile_append_of_all {p : Char → Bool} {l : List Char} {c : Char} {r : List Char}
    (hl : l.all p = true) (hc : p c = false) :
    (l ++ c :: r).dropWhile p = c :: r := by
  induction l with
  | nil => simp [List.dropWhile_cons, hc]
  | cons a l ih =>
    simp only [List.all_cons, Bool.and_eq_true] at hl
    simp [List.dropWhile_cons, hl.1, ih hl.2]

theorem all_takeWhile {p : Char → Bool} (l : List Char) : (l.takeWhile p).all p = true := by
  induction l with
  | nil => simp
  | cons a l ih =>
    by_cases h : p a = true
    · simp [List.takeWhile_cons, h, ih]
    · simp only [Bool.not_eq_true] at h
      simp [List.takeWhile_cons, h]

theorem dropWhile_head_false {p : Char → Bool} {l : List Char} {c : Char} {r : List Char}
    (h : l.dropWhile p = c :: r) : p c = false := by
  induction l with
  | nil => simp at h
  | cons a l ih =>
    by_cases ha : p a = true
    · rw [List.dropWhile_cons_of_pos ha] at h
      exact ih h
    · simp only [Bool.not_eq_true] at ha
      rw [List.dropWhile_cons_of_neg (by simp [ha])] at h
      cases h
      exact ha

theorem head?_eq_some_iff {l : List Char} {c : Char} :
    l.head? = some c ↔ ∃ r, l = c :: r := by
  cases l <;> simp

theorem tryMatchSize_some_shape {s g tail : List Char}
    (h : tryMatchSize s = some (g, tail)) :
    ∃ ws sgn ds, MatchShape s ws sgn ds tail ∧ g = keyLit ++ ws ++ ['"'] := by
  simp only [tryMatchSize] at h
  split at h
  case isFalse => exact Option.noConfusion h
  case isTrue hpre =>
    rw [List.isPrefixOf_iff_prefix] at hpre
    obtain ⟨t, ht⟩ := hpre
    have hdrop : s.drop keyLit.length = t := by
      rw [← ht, List.drop_left]
    rw [hdrop] at h
    split at h
    case isFalse => exact Option.noConfusion h
    case isTrue h1 =>
      obtain ⟨u, hu⟩ := head?_eq_some_iff.1 h1
      rw [hu] at h
      simp only [List.tail_cons] at h
      split at h
      case isFalse => exact Option.noConfusion h
      case isTrue h2 =>
        obtain ⟨hds, h3⟩ := h2
        obtain ⟨v, hv⟩ := head?_eq_some_iff.1 h3
        rw [hv] at h
        simp only [List.tail_cons, Option.some.injEq, Prod.mk.injEq] at h
        obtain ⟨hg, htail⟩ := h
        subst htail
        -- the digit run and its remainder reassemble the signless value text
        have hu1 : stripNeg u =
            (stripNeg u).takeWhile isPyDigit ++ '"' :: v := by
          conv_lhs => rw [← List.takeWhile_append_dropWhile isPyDigit (stripNeg u)]
          rw [hv]
        set ds := (stripNeg u).takeWhile isPyDigit with hdsdef
        have hdsall : ds.all isPyDigit = true := all_takeWhile _
        -- sign analysis
        have hsgn : ∃ sgn, (sgn = [] ∨ sgn = ['-']) ∧ u = sgn ++ stripNeg u := by
          by_cases hneg : ∃ u', u = '-' :: u'
          · obtain ⟨u', hu'⟩ := hneg
            exact ⟨['-'], Or.inr rfl, by rw [hu', stripNeg_minus, List.singleton_append]⟩
          · refine ⟨[], Or.inl rfl, ?_⟩
            rw [stripNeg_of_head_ne (fun u' hc => hneg ⟨u', hc⟩)]
            simp
        obtain ⟨sgn, hsgnor, husgn⟩ := hsgn
        refine ⟨t.takeWhile isPySpace, sgn, ds, ⟨?_, all_takeWhile _, hsgnor, hds, hdsall⟩, hg.symm⟩
        rw [← ht]
        conv_lhs => rw [← List.takeWhile_append_dropWhile isPySpace t, hu, husgn, hu1]
        simp [List.append_assoc]

theorem tryMatchSize_of_shape {s ws sgn ds tail : List Char}
    (h : MatchShape s ws sgn ds tail) :
    tryMatchSize s = some (keyLit ++ ws ++ ['"'], tail) := by
  obtain ⟨hs, hws, hsgn, hds, hdsall⟩ := h
  have hne : isPySpace '"' = false := by decide
  have hstrip : stripNeg (sgn ++ ds ++ '"' :: tail) = ds ++ '"' :: tail := by
    rcases hsgn with h | h
    · subst h
      simp only [List.nil_append]
      cases hd : ds with
      | nil => exact absurd hd hds
      | cons d ds' =>
        have hdd : isPyDigit d = true := by
          rw [hd] at hdsall
          simp only [List.all_cons, Bool.and_eq_true] at hdsall
          exact hdsall.1
        subst hd
        exact stripNeg_of_head_ne (fun u' hc => by
          cases hc
          exact isPyDigit_ne_minus hdd rfl)
    · subst h
      simp [stripNeg_minus]
  have hquote : isPyDigit '"' = false := by decide
  have hdigits : (ds ++ '"' :: tail).takeWhile isPyDigit = ds :=
    takeWhile_append_of_all hdsall hquote
  have hdigits2 : (ds ++ '"' :: tail).dropWhile isPyDigit = '"' :: tail :=
    dropWhile_append_of_all hdsall hquote
  subst hs
  simp only [tryMatchSize]
  have hpre : keyLit.isPrefixOf (keyLit ++ ws ++ '"' :: (sgn ++ ds ++ '"' :: tail)) = true := by
    rw [List.isPrefixOf_iff_prefix, List.append_assoc]
    exact List.prefix_append _ _
  rw [if_pos hpre]
  have hdropkey : (keyLit ++ ws ++ '"' :: (sgn ++ ds ++ '"' :: tail)).drop keyLit.length
      = ws ++ '"' :: (sgn ++ ds ++ '"' :: tail) := by
    rw [List.append_assoc, List.drop_left]
  rw [hdropkey]
  rw [takeWhile_append_of_all hws hne, dropWhile_append_of_all hws hne]
  rw [List.head?_cons, if_pos rfl, List.tail_cons]
  rw [hstrip, hdigits, hdigits2]
  rw [List.head?_cons, List.tail_cons]
  rw [if_pos (⟨hds, rfl⟩ : ds ≠ [] ∧ some '"' = some '"')]

theorem tryMatchSize_length {s g tail : List Char}
    (h : tryMatchSize s = some (g, tail)) : tail.length < s.length := by
  obtain ⟨ws, sgn, ds, ⟨hs, _, _, _, _⟩, _⟩ := tryMatchSize_some_shape h
  rw [hs]
  simp [keyLit]
  omega

theorem subSizeF_fuel (n : Nat) :
    ∀ f1 f2 s, s.length ≤ f1 → s.length ≤ f2 →
      subSizeF n f1 s = subSizeF n f2 s := by
  intro f1
  induction f1 with
  | zero =>
    intro f2 s h1 _
    have hs : s = [] := List.length_eq_zero.1 (Nat.le_zero.1 h1)
    subst hs
    cases f2 <;> rfl
  | succ f1 ih =>
    intro f2 s h1 h2
    cases s with
    | nil => cases f2 <;> rfl
    | cons c rest =>
      cases f2 with
      | zero => simp at h2
      | succ f2 =>
        cases hm : tryMatchSize (c :: rest) with
        | some p =>
          obtain ⟨g, after⟩ := p
          have hlen : after.length < (c :: rest).length := tryMatchSize_length hm
          simp only [subSizeF, hm]
          simp only [List.length_cons] at h1 h2 hlen
          rw [ih f2 after (by omega) (by omega)]
        | none =>
          simp only [subSizeF, hm]
          simp only [List.length_cons] at h1 h2
          rw [ih f2 rest (by omega) (by omega)]

theorem subSize_nil (n : Nat) : subSize n [] = [] := rfl

theorem subSize_cons_some {n : Nat} {c : Char} {rest g after : List Char}
    (h : tryMatchSize (c :: rest) = some (g, after)) :
    subSize n (c :: rest) = g ++ decDigits n ++ '"' :: subSize n after := by
  unfold subSize
  simp only [List.length_cons, subSizeF, h]
  have hlen : after.length < (c :: rest).length := tryMatchSize_length h
  simp only [List.length_cons] at hlen
  rw [subSizeF_fuel n rest.length after.length after (by omega) le_rfl]

theorem subSize_cons_none {n : Nat} {c : Char} {rest : List Char}
    (h : tryMatchSize (c :: rest) = none) :
    subSize n (c :: rest) = c :: subSize n rest := by
  unfold subSize
  simp only [List.length_cons, subSizeF, h]

theorem countMatchesF_fuel :
    ∀ f1 f2 s, s.length ≤ f1 → s.length ≤ f2 →
      countMatchesF f1 s = countMatchesF f2 s := by
  intro f1
  induction f1 with
  | zero =>
    intro f2 s h1 _
    have hs : s = [] := List.length_eq_zero.1 (Nat.le_zero.1 h1)
    subst hs
    cases f2 <;> rfl
  | succ f1 ih =>
    intro f2 s h1 h2
    cases s with
    | nil => cases f2 <;> rfl
    | cons c rest =>
      cases f2 with
      | zero => simp at h2
      | succ f2 =>
        cases hm : tryMatchSize (c :: rest) with
        | some p =>
          obtain ⟨g, after⟩ := p
          have hlen : after.length < (c :: rest).length := tryMatchSize_length hm
          simp only [countMatchesF, hm]
          simp only [List.length_cons] at h1 h2 hlen
          rw [ih f2 after (by omega) (by omega)]
        | none =>
          simp only [countMatchesF, hm]
          simp only [List.length_cons] at h1 h2
          rw [ih f2 rest (by omega) (by omega)]

theorem countMatches_nil : countMatches [] = 0 := rfl

theorem countMatches_cons_some {c : Char} {rest g after : List Char}
    (h : tryMatchSize (c :: rest) = some (g, after)) :
    countMatches (c :: rest) = countMatches after + 1 := by
  unfold countMatches
  simp only [List.length_cons, countMatchesF, h]
  have hlen : after.length < (c :: rest).length := tryMatchSize_length h
  simp only [List.length_cons] at hlen
  rw [countMatchesF_fuel rest.length after.length after (by omega) le_rfl]

theorem countMatches_cons_none {c : Char} {rest : List Char}
    (h : tryMatchSize (c :: rest) = none) :
    countMatches (c :: rest) = countMatches rest := by
  unfold countMatches
  simp only [List.length_cons, countMatchesF, h]

theorem tryMatchSize_nil : tryMatchSize [] = none := rfl

theorem tryMatchSize_cons_ne_quote {c : Char} {rest : List Char} (hc : c ≠ '"') :
    tryMatchSize (c :: rest) = none := by
  unfold tryMatchSize
  rw [if_neg]
  intro hpre
  rw [List.isPrefixOf_iff_prefix] at hpre
  obtain ⟨r, hr⟩ := hpre
  rw [keyLit] at hr
  simp only [List.cons_append] at hr
  exact hc (List.head_eq_of_cons_eq hr.symm)

theorem subSize_some {n : Nat} {s g after : List Char}
    (h : tryMatchSize s = some (g, after)) :
    subSize n s = g ++ decDigits n ++ '"' :: subSize n after := by
  cases s with
  | nil => rw [tryMatchSize_nil] at h; exact Option.noConfusion h
  | cons c rest => exact subSize_cons_some h

theorem subSize_none_cons {n : Nat} {c : Char} {rest : List Char}
    (h : tryMatchSize (c :: rest) = none) :
    subSize n (c :: rest) = c :: subSize n rest :=
  subSize_cons_none h

theorem countMatches_some {s g after : List Char}
    (h : tryMatchSize s = some (g, after)) :
    countMatches s = countMatches after + 1 := by
  cases s with
  | nil => rw [tryMatchSize_nil] at h; exact Option.noConfusion h
  | cons c rest => exact countMatches_cons_some h

/-- If every attempt during the scan fails, `re.sub` leaves the text
unchanged. -/
theorem subSize_eq_self_of_allfail {n : Nat} :
    ∀ s : List Char, (∀ u, u <:+ s → tryMatchSize u = none) → subSize n s = s := by
  intro s
  induction s with
  | nil => intro _; rfl
  | cons c rest ih =>
    intro h
    rw [subSize_cons_none (h _ (List.suffix_refl _))]
    rw [ih (fun u hu => h u (hu.trans (List.suffix_cons c rest)))]

theorem countMatches_eq_zero_of_allfail :
    ∀ s : List Char, (∀ u, u <:+ s → tryMatchSize u = none) → countMatches s = 0 := by
  intro s
  induction s with
  | nil => intro _; rfl
  | cons c rest ih =>
    intro h
    rw [countMatches_cons_none (h _ (List.suffix_refl _))]
    exact ih (fun u hu => h u (hu.trans (List.suffix_cons c rest)))

/-- The scan passes unchanged over a region in which every attempt
fails. -/
theorem subSize_append_of_skips {n : Nat} :
    ∀ u z : List Char,
      (∀ v, v <:+ u → v ≠ [] → tryMatchSize (v ++ z) = none) →
      subSize n (u ++ z) = u ++ subSize n z := by
  intro u
  induction u with
  | nil => intro z _; rfl
  | cons c u' ih =>
    intro z h
    have h0 : tryMatchSize ((c :: u') ++ z) = none :=
      h (c :: u') (List.suffix_refl _) (by simp)
    rw [List.cons_append] at h0 ⊢
    rw [subSize_cons_none h0]
    rw [ih z (fun v hv hne => h v (hv.trans (List.suffix_cons c u')) hne)]
    rw [List.cons_append]

theorem countMatches_append_of_skips :
    ∀ u z : List Char,
      (∀ v, v <:+ u → v ≠ [] → tryMatchSize (v ++ z) = none) →
      countMatches (u ++ z) = countMatches z := by
  intro u
  induction u with
  | nil => intro z _; rfl
  | cons c u' ih =>
    intro z h
    have h0 : tryMatchSize ((c :: u') ++ z) = none :=
      h (c :: u') (List.suffix_refl _) (by simp)
    rw [List.cons_append] at h0
    rw [List.cons_append, countMatches_cons_none h0]
    exact ih z (fun v hv hne => h v (hv.trans (List.suffix_cons c u')) hne)

/-- Decomposition of a text along the first match of the scan: either the
scan changes nothing, or the text splits into an unmatched prefix, a
first match, and a tail, and the output splits correspondingly. -/
theorem subSize_decomp (n : Nat) :
    ∀ k s, s.length ≤ k →
      subSize n s = s ∨
      ∃ a ws sgn ds t, s = a ++ (keyLit ++ ws ++ '"' :: (sgn ++ ds ++ '"' :: t)) ∧
        ws.all isPySpace = true ∧ (sgn = [] ∨ sgn = ['-']) ∧
        ds ≠ [] ∧ ds.all isPyDigit = true ∧
        subSize n s = a ++ (keyLit ++ ws ++ '"' :: (decDigits n ++ '"' :: subSize n t)) := by
  intro k
  induction k with
  | zero =>
    intro s hs
    have : s = [] := List.length_eq_zero.1 (Nat.le_zero.1 hs)
    subst this
    exact Or.inl rfl
  | succ k ih =>
    intro s hs
    cases s with
    | nil => exact Or.inl rfl
    | cons c rest =>
      cases hm : tryMatchSize (c :: rest) with
      | some p =>
        obtain ⟨g, after⟩ := p
        obtain ⟨ws, sgn, ds, ⟨hshape, hws, hsgn, hds, hdsall⟩, hg⟩ := tryMatchSize_some_shape hm
        refine Or.inr ⟨[], ws, sgn, ds, after, by simpa using hshape, hws, hsgn, hds, hdsall, ?_⟩
        rw [subSize_cons_some hm, hg]
        simp [List.append_assoc]
      | none =>
        rw [subSize_cons_none hm]
        simp only [List.length_cons] at hs
        rcases ih rest (by omega) with heq | ⟨a, ws, sgn, ds, t, hrest, hws, hsgn, hds, hdsall, hsub⟩
        · exact Or.inl (by rw [heq])
        · refine Or.inr ⟨c :: a, ws, sgn, ds, t, ?_, hws, hsgn, hds, hdsall, ?_⟩
          · rw [List.cons_append, ← hrest]
          · rw [List.cons_append, ← hsub]

/-- Stability of attempt failure under the scan's rewriting of the tail:
if the attempt at the head of `c :: rest` fails, it still fails at the
head of `c :: subSize n rest`.  A replacement performed further right
only changes the digits of a stored value, and no alignment of the
pattern can turn that change into a new match at an earlier position. -/
theorem tryMatchSize_none_stable (n : Nat) {c : Char} {rest : List Char}
    (h : tryMatchSize (c :: rest) = none) :
    tryMatchSize (c :: subSize n rest) = none := by
  cases hm : tryMatchSize (c :: subSize n rest) with
  | none => rfl
  | some p =>
    exfalso
    obtain ⟨g, tail⟩ := p
    obtain ⟨ws, sgn, ds, ⟨hshape, hws, hsgnor, hds, hdsall⟩, hg⟩ := tryMatchSize_some_shape hm
    have hcontra : ∀ ws1 sgn1 ds1 t1, MatchShape (c :: rest) ws1 sgn1 ds1 t1 → False := by
      intro ws1 sgn1 ds1 t1 hsh
      have hsome := tryMatchSize_of_shape hsh
      rw [h] at hsome
      exact Option.noConfusion hsome
    rcases subSize_decomp n rest.length rest le_rfl with
      heq | ⟨a, w0, sgn0, d0, t, hrest, hw0, hsgn0, hd0, hd0all, hsub⟩
    · rw [heq] at hshape
      exact hcontra _ _ _ _ ⟨hshape, hws, hsgnor, hds, hdsall⟩
    · have hP : (keyLit ++ ws ++ ['"'] ++ sgn ++ ds ++ ['"']) ++ tail
          = ((c :: a) ++ keyLit ++ w0 ++ ['"']) ++ (decDigits n ++ '"' :: subSize n t) := by
        have e1 : (keyLit ++ ws ++ ['"'] ++ sgn ++ ds ++ ['"']) ++ tail
            = keyLit ++ ws ++ '"' :: (sgn ++ ds ++ '"' :: tail) := by
          simp [List.append_assoc]
        have e2 : ((c :: a) ++ keyLit ++ w0 ++ ['"']) ++ (decDigits n ++ '"' :: subSize n t)
            = c :: (a ++ (keyLit ++ w0 ++ '"' :: (decDigits n ++ '"' :: subSize n t))) := by
          simp [List.append_assoc]
        rw [e1, e2, ← hshape, ← hsub]
      rcases List.append_eq_append_iff.1 hP with ⟨k, hk1, hk2⟩ | ⟨q, hq1, hq2⟩
      · -- the rewritten region lies beyond the new match: the same match
        -- was already present in the original text
        have hcr : c :: rest
            = keyLit ++ ws ++ '"' :: (sgn ++ ds ++ '"' :: (k ++ (sgn0 ++ d0 ++ '"' :: t))) := by
          have e3 : c :: rest = ((c :: a) ++ keyLit ++ w0 ++ ['"']) ++ (sgn0 ++ d0 ++ '"' :: t) := by
            rw [hrest]; simp [List.append_assoc]
          rw [e3, hk1]
          simp [List.append_assoc]
        exact hcontra _ _ _ _ ⟨hcr, hws, hsgnor, hds, hdsall⟩
      · cases q with
        | nil =>
          simp only [List.append_nil] at hq1
          have hcr : c :: rest
              = keyLit ++ ws ++ '"' :: (sgn ++ ds ++ '"' :: (sgn0 ++ d0 ++ '"' :: t)) := by
            have e3 : c :: rest = ((c :: a) ++ keyLit ++ w0 ++ ['"']) ++ (sgn0 ++ d0 ++ '"' :: t) := by
              rw [hrest]; simp [List.append_assoc]
            rw [e3, ← hq1]
            simp [List.append_assoc]
          exact hcontra _ _ _ _ ⟨hcr, hws, hsgnor, hds, hdsall⟩
        | cons q0 q' =>
          have hq1' : keyLit ++ (ws ++ '"' :: (sgn ++ ds ++ ['"']))
              = ((c :: a) ++ keyLit ++ w0) ++ '"' :: (q0 :: q') := by
            have e4 : keyLit ++ (ws ++ '"' :: (sgn ++ ds ++ ['"']))
                = keyLit ++ ws ++ ['"'] ++ sgn ++ ds ++ ['"'] := by
              simp [List.append_assoc]
            have e5 : ((c :: a) ++ keyLit ++ w0) ++ '"' :: (q0 :: q')
                = ((c :: a) ++ keyLit ++ w0 ++ ['"']) ++ (q0 :: q') := by
              simp [List.append_assoc]
            rw [e4, e5, hq1]
          rcases List.append_eq_append_iff.1 hq1' with ⟨x1, hx1, hx2⟩ | ⟨e, he1, he2⟩
          · rcases List.append_eq_append_iff.1 hx2 with ⟨k2, hk21, hk22⟩ | ⟨e2, he21, he22⟩
            · cases k2 with
              | nil =>
                simp only [List.append_nil] at hk21
                have hx1' : (c :: a) ++ keyLit ++ w0 = keyLit ++ ws := by
                  rw [hx1, hk21]
                have hcr : c :: rest = keyLit ++ ws ++ '"' :: (sgn0 ++ d0 ++ '"' :: t) := by
                  have e3 : c :: rest
                      = ((c :: a) ++ keyLit ++ w0) ++ '"' :: (sgn0 ++ d0 ++ '"' :: t) := by
                    rw [hrest]; simp [List.append_assoc]
                  rw [e3, hx1']
                exact hcontra _ _ _ _ ⟨hcr, hws, hsgn0, hd0, hd0all⟩
              | cons c2 k2' =>
                rw [List.cons_append] at hk22
                injection hk22 with hc2 hk22'
                rcases List.append_eq_append_iff.1 hk22' with ⟨m, hm1, hm2⟩ | ⟨m, hm1, hm2⟩
                · have hlen := congrArg List.length hm2
                  simp only [List.length_append, List.length_cons, List.length_nil] at hlen
                  omega
                · cases m with
                  | nil => simp at hm2
                  | cons m0 m' =>
                    rw [List.cons_append] at hm2
                    injection hm2 with hm0 _
                    have hmem : m0 ∈ sgn ++ ds := by
                      rw [hm1]
                      exact List.mem_append.2 (Or.inr (List.mem_cons_self m0 m'))
                    rw [← hm0] at hmem
                    rcases List.mem_append.1 hmem with hqm | hqm
                    · rcases hsgnor with hsg | hsg <;> subst hsg <;> simp at hqm
                    · have := List.all_eq_true.1 hdsall _ hqm
                      exact absurd this (by decide)
            · cases e2 with
              | nil =>
                simp only [List.append_nil] at he21
                have hx1' : (c :: a) ++ keyLit ++ w0 = keyLit ++ ws := by
                  rw [hx1, ← he21]
                have hcr : c :: rest = keyLit ++ ws ++ '"' :: (sgn0 ++ d0 ++ '"' :: t) := by
                  have e3 : c :: rest
                      = ((c :: a) ++ keyLit ++ w0) ++ '"' :: (sgn0 ++ d0 ++ '"' :: t) := by
                    rw [hrest]; simp [List.append_assoc]
                  rw [e3, hx1']
                exact hcontra _ _ _ _ ⟨hcr, hws, hsgn0, hd0, hd0all⟩
              | cons e0 e' =>
                rw [List.cons_append] at he22
                injection he22 with he0 _
                have hmem : e0 ∈ ws := by
                  rw [he21]
                  exact List.mem_append.2 (Or.inr (List.mem_cons_self e0 e'))
                rw [← he0] at hmem
                have := List.all_eq_true.1 hws _ hmem
                exact absurd this (by decide)
          · have hlen := congrArg List.length he1
            simp only [keyLit, List.length_append, List.length_cons, List.length_nil] at hlen
            omega

/-- The value-replacement pass is idempotent: each replaced value again
matches the pattern and maps to itself, and failures are stable. -/
theorem subSize_idem (n : Nat) :
    ∀ k s, s.length ≤ k → subSize n (subSize n s) = subSize n s := by
  intro k
  induction k with
  | zero =>
    intro s hs
    have : s = [] := List.length_eq_zero.1 (Nat.le_zero.1 hs)
    subst this
    rfl
  | succ k ih =>
    intro s hs
    cases s with
    | nil => rfl
    | cons c rest =>
      simp only [List.length_cons] at hs
      cases hm : tryMatchSize (c :: rest) with
      | some p =>
        obtain ⟨g, after⟩ := p
        obtain ⟨ws, sgn, ds, ⟨hshape, hws, hsgnor, hds, hdsall⟩, hg⟩ := tryMatchSize_some_shape hm
        rw [subSize_cons_some hm]
        have hshape2 : MatchShape (g ++ decDigits n ++ '"' :: subSize n after)
            ws [] (decDigits n) (subSize n after) := by
          refine ⟨?_, hws, Or.inl rfl, decDigits_ne_nil n, decDigits_all_digit n⟩
          rw [hg]
          simp [List.append_assoc]
        have hm2 := tryMatchSize_of_shape hshape2
        rw [← hg] at hm2
        rw [subSize_some hm2]
        have hlen : after.length ≤ k := by
          have := tryMatchSize_length hm
          simp only [List.length_cons] at this
          omega
        rw [ih after hlen]
      | none =>
        rw [subSize_cons_none hm]
        rw [subSize_cons_none (tryMatchSize_none_stable n hm)]
        rw [ih rest (by omega)]

/-- The second pass finds exactly as many matches as the first: the scan
of the rewritten text matches exactly at the rewritten positions. -/
theorem countMatches_subSize (n : Nat) :
    ∀ k s, s.length ≤ k → countMatches (subSize n s) = countMatches s := by
  intro k
  induction k with
  | zero =>
    intro s hs
    have : s = [] := List.length_eq_zero.1 (Nat.le_zero.1 hs)
    subst this
    rfl
  | succ k ih =>
    intro s hs
    cases s with
    | nil => rfl
    | cons c rest =>
      simp only [List.length_cons] at hs
      cases hm : tryMatchSize (c :: rest) with
      | some p =>
        obtain ⟨g, after⟩ := p
        obtain ⟨ws, sgn, ds, ⟨hshape, hws, hsgnor, hds, hdsall⟩, hg⟩ := tryMatchSize_some_shape hm
        rw [subSize_cons_some hm]
        have hshape2 : MatchShape (g ++ decDigits n ++ '"' :: subSize n after)
            ws [] (decDigits n) (subSize n after) := by
          refine ⟨?_, hws, Or.inl rfl, decDigits_ne_nil n, decDigits_all_digit n⟩
          rw [hg]
          simp [List.append_assoc]
        have hm2 := tryMatchSize_of_shape hshape2
        rw [← hg] at hm2
        rw [countMatches_some hm2, countMatches_some hm]
        have hlen : after.length ≤ k := by
          have := tryMatchSize_length hm
          simp only [List.length_cons] at this
          omega
        rw [ih after hlen]
      | none =>
        rw [subSize_cons_none hm]
        rw [countMatches_cons_none (tryMatchSize_none_stable n hm)]
        rw [countMatches_cons_none hm]
        exact ih rest (by omega)

/-- The first 13 characters of a text are never changed by the
value-replacement pass: the earliest position a replacement can touch is
preceded by the 12-character key literal and the value's opening
quote. -/
theorem subSize_take13 (n : Nat) :
    ∀ k s, s.length ≤ k → (subSize n s).take 13 = s.take 13 := by
  intro k
  induction k with
  | zero =>
    intro s hs
    have : s = [] := List.length_eq_zero.1 (Nat.le_zero.1 hs)
    subst this
    rfl
  | succ k ih =>
    intro s hs
    cases s with
    | nil => rfl
    | cons c rest =>
      simp only [List.length_cons] at hs
      cases hm : tryMatchSize (c :: rest) with
      | some p =>
        obtain ⟨g, after⟩ := p
        obtain ⟨ws, sgn, ds, ⟨hshape, hws, hsgnor, hds, hdsall⟩, hg⟩ := tryMatchSize_some_shape hm
        rw [subSize_cons_some hm]
        have hglen : 13 ≤ g.length := by
          rw [hg]
          simp [keyLit, List.length_append]
        have h1 : (g ++ decDigits n ++ '"' :: subSize n after).take 13 = g.take 13 := by
          rw [List.append_assoc]
          rw [List.take_append_of_le_length hglen]
        have h2 : (c :: rest).take 13 = g.take 13 := by
          have hsg : c :: rest = g ++ (sgn ++ ds ++ '"' :: after) := by
            rw [hshape, hg]
            simp [List.append_assoc]
          rw [hsg, List.take_append_of_le_length hglen]
        rw [h1, h2]
      | none =>
        rw [subSize_cons_none hm]
        have ihr := ih rest (by omega)
        have h12 : (subSize n rest).take 12 = rest.take 12 := by
          have := congrArg (List.take 12) ihr
          simpa [List.take_take] using this
        simp [List.take_cons, h12]

theorem keyLit_prefix_of_take {s : List Char} (h : keyLit <+: s) :
    s.take 12 = keyLit := by
  obtain ⟨r, hr⟩ := h
  rw [← hr]
  exact List.take_left' (by rfl)

/-- The quoted key literal survives the value-replacement pass. -/
theorem keyLit_infix_subSize (n : Nat) :
    ∀ k s, s.length ≤ k → keyLit <:+: s → keyLit <:+: subSize n s := by
  intro k
  induction k with
  | zero =>
    intro s hs hinf
    have : s = [] := List.length_eq_zero.1 (Nat.le_zero.1 hs)
    subst this
    rw [subSize_nil]
    exact hinf
  | succ k ih =>
    intro s hs hinf
    cases s with
    | nil =>
      rw [subSize_nil]
      exact hinf
    | cons c rest =>
      simp only [List.length_cons] at hs
      cases hm : tryMatchSize (c :: rest) with
      | some p =>
        obtain ⟨g, after⟩ := p
        obtain ⟨ws, sgn, ds, ⟨hshape, hws, hsgnor, hds, hdsall⟩, hg⟩ := tryMatchSize_some_shape hm
        rw [subSize_cons_some hm, hg]
        have : keyLit <+: keyLit ++ ws ++ ['"'] ++ decDigits n ++ '"' :: subSize n after := by
          simp only [List.append_assoc]
          exact List.prefix_append _ _
        exact this.isInfix
      | none =>
        rw [subSize_cons_none hm]
        rcases List.infix_cons_iff.1 hinf with hp | hi
        · have htake : (c :: rest).take 12 = keyLit := keyLit_prefix_of_take hp
          have ht13 : (subSize n (c :: rest)).take 13 = (c :: rest).take 13 :=
            subSize_take13 n (c :: rest).length _ le_rfl
          have ht12 : (subSize n (c :: rest)).take 12 = (c :: rest).take 12 := by
            have := congrArg (List.take 12) ht13
            simpa [List.take_take] using this
          rw [subSize_cons_none hm] at ht12
          have : keyLit <+: c :: subSize n rest := by
            rw [← htake, ← ht12]
            exact List.take_prefix _ _
          exact this.isInfix
        · exact List.infix_cons_iff.2 (Or.inr (ih rest (by omega) hi))

/-- A failed attempt stays failed when the text is extended only at
positions the attempt never reached; conversely, a prefix occurrence of
the key literal in `v ++ z` either lies in `v` or hangs over into `z`. -/
theorem keyLit_prefix_split {v z : List Char} (h : keyLit <+: v ++ z) :
    keyLit <+: v ∨ ∃ a', a' ≠ [] ∧ keyLit = v ++ a' ∧ a' <+: z := by
  obtain ⟨r, hr⟩ := h
  rcases List.append_eq_append_iff.1 hr with ⟨a', ha1, ha2⟩ | ⟨c', hc1, hc2⟩
  · exact Or.inl ⟨a', ha1.symm⟩
  · cases c' with
    | nil =>
      refine Or.inl ⟨[], ?_⟩
      rw [List.append_nil] at hc1 ⊢
      exact hc1
    | cons c0 c'' =>
      exact Or.inr ⟨c0 :: c'', by simp, hc1, ⟨r, hc2.symm⟩⟩

theorem tab_not_mem_keyLit : '\t' ∉ keyLit := by decide

theorem keyLit_head : keyLit = '"' :: keyLit.tail := rfl

/-- If the key literal occurs nowhere in `u` and the continuation starts
with a tab, every attempt inside `u` fails. -/
theorem attempts_fail_before_insStr {u z : List Char}
    (hni : ¬ keyLit <:+: u) (hz : ∃ z', z = '\t' :: z') :
    ∀ v, v <:+ u → v ≠ [] → tryMatchSize (v ++ z) = none := by
  intro v hv hne
  cases hm : tryMatchSize (v ++ z) with
  | none => rfl
  | some p =>
    exfalso
    obtain ⟨g, tail⟩ := p
    obtain ⟨ws, sgn, ds, ⟨hshape, _, _, _, _⟩, _⟩ := tryMatchSize_some_shape hm
    have hpre : keyLit <+: v ++ z := by
      rw [hshape]
      simp only [List.append_assoc]
      exact List.prefix_append _ _
    rcases keyLit_prefix_split hpre with hp | ⟨a', hane, hkey, hpz⟩
    · exact hni (hp.isInfix.trans hv.isInfix)
    · obtain ⟨z', hz'⟩ := hz
      subst hz'
      cases a' with
      | nil => exact hane rfl
      | cons a0 a'' =>
        obtain ⟨r, hr⟩ := hpz
        rw [List.cons_append] at hr
        have ha0 : a0 = '\t' := List.head_eq_of_cons_eq hr
        have hmem : a0 ∈ keyLit := by
          rw [hkey]
          exact List.mem_append.2 (Or.inr (List.mem_cons_self _ _))
        rw [ha0] at hmem
        exact tab_not_mem_keyLit hmem

theorem insertSize_shape (n : Nat) {w : List Char} (hw : w.all isPySpace = true) :
    ∀ pre, insertSize n (pre ++ '}' :: w) = pre ++ insStr n := by
  intro pre
  induction pre with
  | nil =>
    simp [insertSize, hw]
  | cons c pre' ih =>
    rw [List.cons_append, List.cons_append]
    simp only [insertSize]
    rw [if_neg, ih]
    rintro ⟨hc, hall⟩
    rw [List.all_append] at hall
    simp only [List.all_cons, Bool.and_eq_true] at hall
    exact absurd hall.2.1 (by decide)

theorem insertSize_no_shape (n : Nat) :
    ∀ s, ¬ BraceShape s → insertSize n s = s := by
  intro s
  induction s with
  | nil => intro _; rfl
  | cons c rest ih =>
    intro hb
    simp only [insertSize]
    rw [if_neg, ih]
    · intro hbr
      obtain ⟨p, w, h1, h2⟩ := hbr
      exact hb ⟨c :: p, w, by rw [List.cons_append, h1], h2⟩
    · rintro ⟨hc, hall⟩
      exact hb ⟨[], rest, by rw [List.nil_append, hc], hall⟩

theorem braceShape_of_mem {s : List Char} (hb : BraceShape s) : '}' ∈ s := by
  obtain ⟨p, w, h1, _⟩ := hb
  rw [h1]
  exact List.mem_append.2 (Or.inr (List.mem_cons_self _ _))

theorem keyLit_infix_insStr (n : Nat) : keyLit <:+: insStr n := by
  refine ⟨['\t'], '\t' :: '"' :: (decDigits n ++ '"' :: '\n' :: ['}']), ?_⟩
  simp [insStr]

theorem subSize_insStr (n : Nat) : subSize n (insStr n) = insStr n := by
  have htail : subSize n ('\n' :: ['}']) = '\n' :: ['}'] := by
    rw [subSize_cons_none (tryMatchSize_cons_ne_quote (by decide))]
    rw [subSize_cons_none (tryMatchSize_cons_ne_quote (by decide))]
    rw [subSize_nil]
  have hshape : MatchShape (keyLit ++ '\t' :: '"' :: (decDigits n ++ '"' :: '\n' :: ['}']))
      ['\t'] [] (decDigits n) ('\n' :: ['}']) := by
    refine ⟨?_, by decide, Or.inl rfl, decDigits_ne_nil n, decDigits_all_digit n⟩
    simp [List.append_assoc]
  have hm := tryMatchSize_of_shape hshape
  show subSize n ('\t' :: (keyLit ++ '\t' :: '"' :: (decDigits n ++ '"' :: '\n' :: ['}'])))
      = insStr n
  rw [subSize_cons_none (tryMatchSize_cons_ne_quote (by decide))]
  rw [subSize_some hm, htail]
  simp [insStr, List.append_assoc]

theorem subSize_pre_insStr (n : Nat) {pre : List Char} (hni : ¬ keyLit <:+: pre) :
    subSize n (pre ++ insStr n) = pre ++ insStr n := by
  rw [subSize_append_of_skips pre (insStr n)
    (attempts_fail_before_insStr hni ⟨_, rfl⟩)]
  rw [subSize_insStr]

/-- The text transformation of `update_acf` is idempotent. -/
theorem update_acf_idem (n : Nat) (s : List Char) :
    update_acf n (update_acf n s) = update_acf n s := by
  unfold update_acf
  by_cases hk : hasSub keyLit s = true
  · rw [if_pos hk]
    have hk2 : hasSub keyLit (subSize n s) = true :=
      hasSub_iff_found.2 (keyLit_infix_subSize n s.length s le_rfl (hasSub_iff_found.1 hk))
    rw [if_pos hk2]
    exact subSize_idem n s.length s le_rfl
  · rw [if_neg hk]
    by_cases hb : BraceShape s
    · obtain ⟨pre, w, hsw, hwall⟩ := hb
      subst hsw
      rw [insertSize_shape n hwall pre]
      have hpreni : ¬ keyLit <:+: pre := by
        intro hinf
        exact hk (hasSub_iff_found.2 (hinf.trans (List.prefix_append pre ('}' :: w)).isInfix))
      have hk3 : hasSub keyLit (pre ++ insStr n) = true := by
        apply hasSub_iff_found.2
        exact (keyLit_infix_insStr n).trans (List.suffix_append pre (insStr n)).isInfix
      rw [if_pos hk3]
      exact subSize_pre_insStr n hpreni
    · rw [insertSize_no_shape n s hb]
      rw [if_neg hk, insertSize_no_shape n s hb]

theorem notQuote_of_digit {c : Char} (h : isPyDigit c = true) : notQuote c = true := by
  simp only [notQuote, decide_eq_true_eq]
  exact isPyDigit_ne_quote h

theorem notQuote_of_space {c : Char} (h : isPySpace c = true) : notQuote c = true := by
  simp only [notQuote, decide_eq_true_eq]
  exact isPySpace_ne_quote h

theorem tryMatchPair_some_shape {s k v w : List Char}
    (h : tryMatchPair s = some (k, v, w)) :
    ∃ ws, PairShape s k ws v w := by
  simp only [tryMatchPair] at h
  split at h
  case isFalse => exact Option.noConfusion h
  case isTrue h0 =>
    obtain ⟨t, ht⟩ := head?_eq_some_iff.1 h0
    rw [ht] at h
    simp only [List.tail_cons] at h
    split at h
    case isFalse => exact Option.noConfusion h
    case isTrue h1 =>
      obtain ⟨hk, h1b⟩ := h1
      obtain ⟨r1, hr1⟩ := head?_eq_some_iff.1 h1b
      rw [hr1] at h
      simp only [List.tail_cons] at h
      split at h
      case isFalse => exact Option.noConfusion h
      case isTrue h2 =>
        obtain ⟨hws, h2b⟩ := h2
        obtain ⟨r2, hr2⟩ := head?_eq_some_iff.1 h2b
        rw [hr2] at h
        simp only [List.tail_cons] at h
        split at h
        case isFalse => exact Option.noConfusion h
        case isTrue h3 =>
          obtain ⟨hv, h3b⟩ := h3
          obtain ⟨r3, hr3⟩ := head?_eq_some_iff.1 h3b
          rw [hr3] at h
          simp only [List.tail_cons, Option.some.injEq, Prod.mk.injEq] at h
          obtain ⟨hkk, hvv, hww⟩ := h
          subst hkk hvv hww
          refine ⟨r1.takeWhile isPySpace, ?_, hk, all_takeWhile _, hws, all_takeWhile _,
            hv, all_takeWhile _⟩
          rw [ht]
          congr 1
          conv_lhs => rw [← List.takeWhile_append_dropWhile notQuote t, hr1]
          congr 1
          congr 1
          conv_lhs => rw [← List.takeWhile_append_dropWhile isPySpace r1, hr2]
          congr 1
          congr 1
          conv_lhs => rw [← List.takeWhile_append_dropWhile notQuote r2, hr3]

theorem tryMatchPair_of_shape {s k ws v w : List Char}
    (h : PairShape s k ws v w) :
    tryMatchPair s = some (k, v, w) := by
  obtain ⟨hs, hk, hkq, hws, hwsall, hv, hvq⟩ := h
  have hqq : notQuote '"' = false := by decide
  have hqs : isPySpace '"' = false := by decide
  subst hs
  simp only [tryMatchPair]
  rw [List.head?_cons, if_pos rfl, List.tail_cons]
  rw [takeWhile_append_of_all hkq hqq, dropWhile_append_of_all hkq hqq]
  rw [if_pos ⟨hk, by rw [List.head?_cons]⟩]
  rw [List.tail_cons]
  rw [takeWhile_append_of_all hwsall hqs, dropWhile_append_of_all hwsall hqs]
  rw [if_pos ⟨hws, by rw [List.head?_cons]⟩]
  rw [List.tail_cons]
  rw [takeWhile_append_of_all hvq hqq, dropWhile_append_of_all hvq hqq]
  rw [if_pos ⟨hv, by rw [List.head?_cons]⟩]
  rw [List.tail_cons]

theorem tryMatchPair_nil : tryMatchPair [] = none := rfl

theorem tryMatchPair_cons_ne_quote {c : Char} {rest : List Char} (hc : c ≠ '"') :
    tryMatchPair (c :: rest) = none := by
  simp only [tryMatchPair]
  rw [if_neg]
  simp only [List.head?_cons, Option.some.injEq]
  exact hc

theorem tryMatchPair_length {s k v w : List Char}
    (h : tryMatchPair s = some (k, v, w)) : w.length < s.length := by
  obtain ⟨ws, hshape, _, _, _, _, _, _⟩ := tryMatchPair_some_shape h
  rw [hshape]
  simp [List.length_append]
  omega

theorem pairsOfF_fuel :
    ∀ f1 f2 s, s.length ≤ f1 → s.length ≤ f2 → pairsOfF f1 s = pairsOfF f2 s := by
  intro f1
  induction f1 with
  | zero =>
    intro f2 s h1 _
    have hs : s = [] := List.length_eq_zero.1 (Nat.le_zero.1 h1)
    subst hs
    cases f2 <;> rfl
  | succ f1 ih =>
    intro f2 s h1 h2
    cases s with
    | nil => cases f2 <;> rfl
    | cons c rest =>
      cases f2 with
      | zero => simp at h2
      | succ f2 =>
        cases hm : tryMatchPair (c :: rest) with
        | some p =>
          obtain ⟨k, v, w⟩ := p
          have hlen : w.length < (c :: rest).length := tryMatchPair_length hm
          simp only [pairsOfF, hm]
          simp only [List.length_cons] at h1 h2 hlen
          rw [ih f2 w (by omega) (by omega)]
        | none =>
          simp only [pairsOfF, hm]
          simp only [List.length_cons] at h1 h2
          rw [ih f2 rest (by omega) (by omega)]

theorem pairsOf_nil : pairsOf [] = [] := rfl

theorem pairsOf_cons_some {c : Char} {rest k v w : List Char}
    (h : tryMatchPair (c :: rest) = some (k, v, w)) :
    pairsOf (c :: rest) = (k, v) :: pairsOf w := by
  unfold pairsOf
  simp only [List.length_cons, pairsOfF, h]
  have hlen : w.length < (c :: rest).length := tryMatchPair_length h
  simp only [List.length_cons] at hlen
  rw [pairsOfF_fuel rest.length w.length w (by omega) le_rfl]

theorem pairsOf_cons_none {c : Char} {rest : List Char}
    (h : tryMatchPair (c :: rest) = none) :
    pairsOf (c :: rest) = pairsOf rest := by
  unfold pairsOf
  simp only [List.length_cons, pairsOfF, h]

theorem pairsOf_some {s k v w : List Char}
    (h : tryMatchPair s = some (k, v, w)) :
    pairsOf s = (k, v) :: pairsOf w := by
  cases s with
  | nil => rw [tryMatchPair_nil] at h; exact Option.noConfusion h
  | cons c rest => exact pairsOf_cons_some h

theorem scanCleanF_fuel :
    ∀ f1 f2 s, s.length ≤ f1 → s.length ≤ f2 → scanCleanF f1 s = scanCleanF f2 s := by
  intro f1
  induction f1 with
  | zero =>
    intro f2 s h1 _
    have hs : s = [] := List.length_eq_zero.1 (Nat.le_zero.1 h1)
    subst hs
    cases f2 <;> rfl
  | succ f1 ih =>
    intro f2 s h1 h2
    cases s with
    | nil => cases f2 <;> rfl
    | cons c rest =>
      cases f2 with
      | zero => simp at h2
      | succ f2 =>
        cases hm : tryMatchPair (c :: rest) with
        | some p =>
          obtain ⟨k, v, w⟩ := p
          have hlen : w.length < (c :: rest).length := tryMatchPair_length hm
          simp only [scanCleanF, hm]
          simp only [List.length_cons] at h1 h2 hlen
          rw [ih f2 w (by omega) (by omega)]
        | none =>
          simp only [scanCleanF, hm]
          simp only [List.length_cons] at h1 h2
          rw [ih f2 rest (by omega) (by omega)]

theorem scanClean_cons_some {c : Char} {rest k v w : List Char}
    (h : tryMatchPair (c :: rest) = some (k, v, w)) :
    scanClean (c :: rest) = scanClean w := by
  unfold scanClean
  simp only [List.length_cons, scanCleanF, h]
  have hlen : w.length < (c :: rest).length := tryMatchPair_length h
  simp only [List.length_cons] at hlen
  rw [scanCleanF_fuel rest.length w.length w (by omega) le_rfl]

theorem scanClean_cons_none {c : Char} {rest : List Char}
    (h : tryMatchPair (c :: rest) = none) :
    scanClean (c :: rest) = (!(c = '"') && scanClean rest) := by
  unfold scanClean
  simp only [List.length_cons, scanCleanF, h]

theorem tryMatchPair_append {s k v w ys : List Char}
    (h : tryMatchPair s = some (k, v, w)) :
    tryMatchPair (s ++ ys) = some (k, v, w ++ ys) := by
  obtain ⟨ws, hshape, hk, hkq, hws, hwsall, hv, hvq⟩ := tryMatchPair_some_shape h
  apply tryMatchPair_of_shape
  refine ⟨?_, hk, hkq, hws, hwsall, hv, hvq⟩
  rw [hshape]
  simp [List.append_assoc]

/-- A clean scan of a left part makes the scan of a concatenation
process the parts independently. -/
theorem pairsOf_append :
    ∀ n xs, xs.length ≤ n → scanClean xs = true →
      ∀ ys, pairsOf (xs ++ ys) = pairsOf xs ++ pairsOf ys := by
  intro n
  induction n with
  | zero =>
    intro xs h1 _ ys
    have hs : xs = [] := List.length_eq_zero.1 (Nat.le_zero.1 h1)
    subst hs
    simp [pairsOf_nil]
  | succ n ih =>
    intro xs h1 hclean ys
    cases xs with
    | nil => simp [pairsOf_nil]
    | cons c rest =>
      simp only [List.length_cons] at h1
      cases hm : tryMatchPair (c :: rest) with
      | some p =>
        obtain ⟨k, v, w⟩ := p
        have hlen : w.length < (c :: rest).length := tryMatchPair_length hm
        simp only [List.length_cons] at hlen
        rw [List.cons_append, pairsOf_cons_some (by rw [← List.cons_append]; exact tryMatchPair_append hm)]
        rw [pairsOf_cons_some hm]
        rw [scanClean_cons_some hm] at hclean
        rw [ih w (by omega) hclean ys]
        simp
      | none =>
        rw [scanClean_cons_none hm] at hclean
        simp only [Bool.and_eq_true, Bool.not_eq_true', decide_eq_false_iff_not] at hclean
        obtain ⟨hcq, hcl⟩ := hclean
        rw [List.cons_append, pairsOf_cons_none (tryMatchPair_cons_ne_quote hcq)]
        rw [pairsOf_cons_none hm]
        exact ih rest (by omega) hcl ys

/-- A text with no double quote yields no pairs. -/
theorem pairsOf_no_quote :
    ∀ s : List Char, (∀ c ∈ s, c ≠ '"') → pairsOf s = [] := by
  intro s
  induction s with
  | nil => intro _; rfl
  | cons c rest ih =>
    intro h
    rw [pairsOf_cons_none (tryMatchPair_cons_ne_quote (h c (List.mem_cons_self _ _)))]
    exact ih (fun x hx => h x (List.mem_cons_of_mem _ hx))

theorem scanClean_no_quote :
    ∀ s : List Char, (∀ c ∈ s, c ≠ '"') → scanClean s = true := by
  intro s
  induction s with
  | nil => intro _; rfl
  | cons c rest ih =>
    intro h
    rw [scanClean_cons_none (tryMatchPair_cons_ne_quote (h c (List.mem_cons_self _ _)))]
    simp only [Bool.and_eq_true, Bool.not_eq_true', decide_eq_false_iff_not]
    exact ⟨h c (List.mem_cons_self _ _), ih (fun x hx => h x (List.mem_cons_of_mem _ hx))⟩

theorem keyLit_eq_quoted_sizeName : keyLit = '"' :: (sizeName ++ ['"']) := rfl

theorem decDigits_all_notQuote (n : Nat) : (decDigits n).all notQuote = true := by
  rw [List.all_eq_true]
  intro c hc
  exact notQuote_of_digit (List.all_eq_true.1 (decDigits_all_digit n) c hc)

/-- The inserted line parses as exactly the one new pair. -/
theorem pairsOf_insStr (n : Nat) :
    pairsOf (insStr n) = [(sizeName, decDigits n)] := by
  have htail : pairsOf ('\n' :: ['}']) = [] :=
    pairsOf_no_quote _ (by decide)
  have hshape : PairShape (keyLit ++ '\t' :: '"' :: (decDigits n ++ '"' :: '\n' :: ['}']))
      sizeName ['\t'] (decDigits n) ('\n' :: ['}']) := by
    refine ⟨?_, by decide, by decide, by decide, by decide,
      decDigits_ne_nil n, decDigits_all_notQuote n⟩
    rw [keyLit_eq_quoted_sizeName]
    simp [List.append_assoc]
  have hm := tryMatchPair_of_shape hshape
  show pairsOf ('\t' :: (keyLit ++ '\t' :: '"' :: (decDigits n ++ '"' :: '\n' :: ['}'])))
      = [(sizeName, decDigits n)]
  rw [pairsOf_cons_none (tryMatchPair_cons_ne_quote (by decide))]
  rw [pairsOf_some hm, htail]

theorem orO_none_right (a : Option (List Char)) : orO a none = a := by
  cases a <;> rfl

theorem dictGet_map_overwrite {k v : List Char} :
    ∀ d : List (List Char × List Char), d.any (fun p => p.1 = k) = true →
      dictGet (d.map (fun p => if p.1 = k then (k, v) else p)) k = some v := by
  intro d
  induction d with
  | nil => intro h; simp at h
  | cons p d' ih =>
    intro h
    by_cases hp : p.1 = k
    · simp [dictGet, List.find?, hp]
    · simp only [List.any_cons, Bool.or_eq_true, decide_eq_true_eq] at h
      rcases h with h | h
      · exact absurd h hp
      · have hrec := ih h
        simp only [dictGet] at hrec ⊢
        simp only [List.map_cons, if_neg hp, List.find?, decide_eq_false hp]
        exact hrec

theorem dictGet_append_single {k v : List Char} :
    ∀ d : List (List Char × List Char), d.any (fun p => p.1 = k) = false →
      dictGet (d ++ [(k, v)]) k = some v := by
  intro d
  induction d with
  | nil => intro _; simp [dictGet, List.find?]
  | cons p d' ih =>
    intro h
    simp only [List.any_cons, Bool.or_eq_false_iff, decide_eq_false_iff_not] at h
    obtain ⟨hp, h'⟩ := h
    have hrec := ih (by simpa using h')
    simp only [dictGet] at hrec ⊢
    simp only [List.cons_append, List.find?, decide_eq_false hp]
    exact hrec

theorem dictGet_insert_self (d : List (List Char × List Char)) (k v : List Char) :
    dictGet (dictInsert d k v) k = some v := by
  unfold dictInsert
  split
  case isTrue h => exact dictGet_map_overwrite d h
  case isFalse h => exact dictGet_append_single d (Bool.eq_false_iff.2 h)

theorem dictGet_insert_ne {k' k v : List Char} (hne : k' ≠ k) :
    ∀ d : List (List Char × List Char), dictGet (dictInsert d k v) k' = dictGet d k' := by
  have hkk : (decide ((k, v).1 = k')) = false := by
    simp only [decide_eq_false_iff_not]
    exact fun hc => hne hc.symm
  intro d
  unfold dictInsert
  split
  case isTrue h =>
    clear h
    induction d with
    | nil => rfl
    | cons p d' ih =>
      by_cases hp : p.1 = k
      · have h2 : (decide (p.1 = k')) = false := by
          simp only [decide_eq_false_iff_not]
          intro hc
          exact hne (by rw [← hc, hp])
        simp only [List.map_cons, if_pos hp]
        simp only [dictGet, List.find?] at ih ⊢
        simp only [hkk, h2]
        exact ih
      · simp only [List.map_cons, if_neg hp]
        simp only [dictGet, List.find?] at ih ⊢
        cases hd : decide (p.1 = k') with
        | true => simp only [hd]
        | false =>
          simp only [hd]
          exact ih
  case isFalse h =>
    clear h
    induction d with
    | nil =>
      simp only [List.nil_append]
      simp only [dictGet, List.find?]
      rw [hkk]
    | cons p d' ih =>
      simp only [List.cons_append]
      simp only [dictGet, List.find?] at ih ⊢
      cases hd : decide (p.1 = k') with
      | true => simp only [hd]
      | false =>
        simp only [hd]
        exact ih

theorem dictGet_foldl (k : List Char) :
    ∀ l d, dictGet (l.foldl (fun d p => dictInsert d p.1 p.2) d) k
      = orO (lastVal l k) (dictGet d k) := by
  intro l
  induction l with
  | nil =>
    intro d
    simp only [List.foldl_nil]
    rfl
  | cons p l' ih =>
    intro d
    simp only [List.foldl_cons]
    rw [ih (dictInsert d p.1 p.2)]
    by_cases hp : p.1 = k
    · have hself : dictGet (dictInsert d p.1 p.2) k = some p.2 := by
        rw [← hp]
        exact dictGet_insert_self d p.1 p.2
      rw [hself]
      have hfil : (p :: l').filter (fun q => q.1 = k)
          = p :: l'.filter (fun q => q.1 = k) := by
        simp [List.filter_cons, hp]
      cases hl : lastVal l' k with
      | some w =>
        have hfne : l'.filter (fun q => q.1 = k) ≠ [] := by
          intro hnil
          rw [lastVal, hnil] at hl
          simp at hl
        obtain ⟨q, qs, hqs⟩ := List.exists_cons_of_ne_nil hfne
        have hlast : lastVal (p :: l') k = some w := by
          rw [lastVal, hfil, hqs, List.getLast?_cons_cons]
          rw [lastVal, hqs] at hl
          exact hl
        rw [hlast]
        rfl
      | none =>
        have hgl : (l'.filter (fun q => q.1 = k)).getLast? = none := by
          cases hix : (l'.filter (fun q => q.1 = k)).getLast? with
          | none => rfl
          | some pr =>
            rw [lastVal, hix] at hl
            simp at hl
        have hfe : l'.filter (fun q => q.1 = k) = [] :=
          List.getLast?_eq_none_iff.1 hgl
        have hlast : lastVal (p :: l') k = some p.2 := by
          rw [lastVal, hfil, hfe]
          rfl
        rw [hlast]
        rfl
    · have hne' : k ≠ p.1 := fun hc => hp hc.symm
      rw [dictGet_insert_ne hne' d]
      have hfil : lastVal (p :: l') k = lastVal l' k := by
        rw [lastVal, lastVal]
        congr 1
        congr 1
        simp [List.filter_cons, hp]
      rw [hfil]

/-- The mapping produced by the dict comprehension refines the
specification "later matches for the same key overwrite earlier ones":
lookup returns the value of the last match for the key, in scan
order. -/
theorem dictGet_parse_eq_lastVal (s : List Char) (k : List Char) :
    dictGet (parse_acf s) k = lastVal (pairsOf s) k := by
  unfold parse_acf
  rw [dictGet_foldl]
  have hnil : dictGet ([] : List (List Char × List Char)) k = none := rfl
  rw [hnil, orO_none_right]

/-- Every pair the scan produces comes from a quoted occurrence of the
key in the text. -/
theorem pair_mem_quoted_infix :
    ∀ n s, s.length ≤ n → ∀ kv : List Char × List Char,
      kv ∈ pairsOf s → ('"' :: (kv.1 ++ ['"'])) <:+: s := by
  intro n
  induction n with
  | zero =>
    intro s h1 kv hmem
    have hs : s = [] := List.length_eq_zero.1 (Nat.le_zero.1 h1)
    subst hs
    rw [pairsOf_nil] at hmem
    exact absurd hmem (List.not_mem_nil kv)
  | succ n ih =>
    intro s h1 kv hmem
    cases s with
    | nil =>
      rw [pairsOf_nil] at hmem
      exact absurd hmem (List.not_mem_nil kv)
    | cons c rest =>
      simp only [List.length_cons] at h1
      cases hm : tryMatchPair (c :: rest) with
      | some p =>
        obtain ⟨k0, v0, w⟩ := p
        rw [pairsOf_cons_some hm] at hmem
        obtain ⟨ws, hshape, _, _, _, _, _, _⟩ := tryMatchPair_some_shape hm
        rcases List.mem_cons.1 hmem with heq | hmem'
        · subst heq
          refine List.IsPrefix.isInfix ⟨ws ++ '"' :: (v0 ++ '"' :: w), ?_⟩
          rw [hshape]
          simp [List.append_assoc]
        · have hlen : w.length < (c :: rest).length := tryMatchPair_length hm
          simp only [List.length_cons] at hlen
          have hinf : ('"' :: (kv.1 ++ ['"'])) <:+: w := ih w (by omega) kv hmem'
          have hsuf : w <:+ c :: rest := by
            rw [hshape]
            refine ⟨'"' :: (k0 ++ '"' :: (ws ++ '"' :: (v0 ++ ['"']))), ?_⟩
            simp [List.append_assoc]
          exact hinf.trans hsuf.isInfix
      | none =>
        rw [pairsOf_cons_none hm] at hmem
        exact List.infix_cons_iff.2 (Or.inr (ih rest (by omega) kv hmem))

theorem bak_ne (p : String) : p ++ ".bak" ≠ p := by
  intro h
  have hlen := congrArg String.length h
  rw [String.length_append] at hlen
  have h4 : (".bak" : String).length = 4 := rfl
  rw [h4] at hlen
  omega

/-- When the scan finds exactly one match, the mutator rewrites exactly
that value and leaves every other byte in place. -/
theorem update_replaces_single_occ (n : Nat) (u ws sgn d w : List Char)
    (hws : ws.all isPySpace = true) (hsgn : sgn = [] ∨ sgn = ['-'])
    (hd : d ≠ []) (hdall : d.all isPyDigit = true)
    (hu : ∀ x, x <:+ u → x ≠ [] →
      tryMatchSize (x ++ (keyLit ++ ws ++ '"' :: (sgn ++ d ++ '"' :: w))) = none)
    (hw : ∀ x, x <:+ w → tryMatchSize x = none) :
    update_acf n (u ++ (keyLit ++ ws ++ '"' :: (sgn ++ d ++ '"' :: w)))
      = u ++ (keyLit ++ ws ++ '"' :: (decDigits n ++ '"' :: w)) ∧
    countMatches (u ++ (keyLit ++ ws ++ '"' :: (sgn ++ d ++ '"' :: w))) = 1 ∧
    countMatches (update_acf n (u ++ (keyLit ++ ws ++ '"' :: (sgn ++ d ++ '"' :: w)))) = 1 := by
  have hshape : MatchShape (keyLit ++ ws ++ '"' :: (sgn ++ d ++ '"' :: w)) ws sgn d w :=
    ⟨rfl, hws, hsgn, hd, hdall⟩
  have hm := tryMatchSize_of_shape hshape
  have hkinf : hasSub keyLit (u ++ (keyLit ++ ws ++ '"' :: (sgn ++ d ++ '"' :: w))) = true := by
    apply hasSub_iff_found.2
    exact ⟨u, ws ++ '"' :: (sgn ++ d ++ '"' :: w), by simp [List.append_assoc]⟩
  have hsubw : subSize n w = w := subSize_eq_self_of_allfail w hw
  have hcntw : countMatches w = 0 := countMatches_eq_zero_of_allfail w hw
  have hupd : update_acf n (u ++ (keyLit ++ ws ++ '"' :: (sgn ++ d ++ '"' :: w)))
      = u ++ (keyLit ++ ws ++ '"' :: (decDigits n ++ '"' :: w)) := by
    unfold update_acf
    rw [if_pos hkinf]
    rw [subSize_append_of_skips u _ hu]
    rw [subSize_some hm, hsubw]
    simp [List.append_assoc]
  have hcnt1 : countMatches (u ++ (keyLit ++ ws ++ '"' :: (sgn ++ d ++ '"' :: w))) = 1 := by
    rw [countMatches_append_of_skips u _ hu]
    rw [countMatches_some hm, hcntw]
  refine ⟨hupd, hcnt1, ?_⟩
  have hsu : update_acf n (u ++ (keyLit ++ ws ++ '"' :: (sgn ++ d ++ '"' :: w)))
      = subSize n (u ++ (keyLit ++ ws ++ '"' :: (sgn ++ d ++ '"' :: w))) := by
    unfold update_acf
    rw [if_pos hkinf]
  rw [hsu, countMatches_subSize n (u ++ (keyLit ++ ws ++ '"' :: (sgn ++ d ++ '"' :: w))).length _ le_rfl, hcnt1]

theorem subSize_buildOccs (n : Nat) :
    ∀ l, GoodOccs l → subSize n (buildOccs l) = buildOccsNew n l := by
  intro l
  induction l with
  | nil => intro _; rfl
  | cons o rest ih =>
    intro hg
    obtain ⟨⟨hws, hsgn, hd, hdall, hsep⟩, hrest⟩ := hg
    have hshape : MatchShape (buildOccs (o :: rest)) o.ws o.sgn o.ds
        (o.sep ++ buildOccs rest) :=
      ⟨rfl, hws, hsgn, hd, hdall⟩
    have hm := tryMatchSize_of_shape hshape
    rw [subSize_some hm]
    rw [subSize_append_of_skips o.sep _ hsep]
    rw [ih hrest]
    simp [buildOccsNew, List.append_assoc]

/-- C1 counterexample: on text with no closing brace and no
`"SizeOnDisk"` key, the mutation does not fail at all — there is no
error path in the text transformation — and it hands back the input
text unchanged, which `update_acf` then writes to the file.  The claim
that it "fails with `FormatError` rather than returning or writing back
text silently" is false: no `FormatError` (or any error) exists in the
code, and `re.sub` with an unmatched pattern returns its input. -/
theorem c1_counterexample :
    update_acf 7 ['a', 'b', 'c'] = ['a', 'b', 'c'] := by
  decide

/-- C1 amended: on every input text with no closing brace and no quoted
`"SizeOnDisk"` substring, the mutator returns the input byte-for-byte
unchanged (and the unchanged text is silently written back); no error is
raised. -/
theorem c1_amended (n : Nat) (T : List Char)
    (hb : '}' ∉ T) (hk : hasSub keyLit T = false) :
    update_acf n T = T := by
  unfold update_acf
  rw [if_neg (by rw [hk]; simp)]
  apply insertSize_no_shape
  intro hbr
  exact hb (braceShape_of_mem hbr)

theorem c1_witness :
    ('}' ∉ ['n', 'o', 'p', 'e'] ∧ hasSub keyLit ['n', 'o', 'p', 'e'] = false) ∧
      update_acf 9 ['n', 'o', 'p', 'e'] = ['n', 'o', 'p', 'e'] :=
  ⟨⟨by decide, by decide⟩, c1_amended 9 ['n', 'o', 'p', 'e'] (by decide) (by decide)⟩

/-- C2: the `Patch` text transformation is idempotent — applying
`update_acf`'s transformation twice with the same byte count yields the
byte-identical text of the first application, with no cumulative
insertion and no double-tabbing. -/
theorem c2_patch_idempotent (T : List Char) (n : Nat) :
    update_acf n (update_acf n T) = update_acf n T :=
  update_acf_idem n T

/-- C3 counterexample: on an input holding two stored size fields — a
mutation "succeeds" (the text changes) — the output contains two
occurrences of the key/value pair, not exactly one: the replace is
global. -/
theorem c3_counterexample :
    update_acf 5 ("\"SizeOnDisk\" \"1\" \"SizeOnDisk\" \"2\"").data
        = ("\"SizeOnDisk\" \"5\" \"SizeOnDisk\" \"5\"").data ∧
    countMatches (("\"SizeOnDisk\" \"5\" \"SizeOnDisk\" \"5\"").data) = 2 :=
  ⟨by decide, by decide⟩

/-- C3 amended: when the scan finds exactly one occurrence of the size
field (unmatched prefix, one match, match-free tail), the output carries
the new value at that occurrence, every byte outside the replaced field
is preserved verbatim, and the output contains exactly one occurrence. -/
theorem c3_amended (n : Nat) (u ws sgn d w : List Char)
    (hws : ws.all isPySpace = true) (hsgn : sgn = [] ∨ sgn = ['-'])
    (hd : d ≠ []) (hdall : d.all isPyDigit = true)
    (hu : ∀ x, x <:+ u → x ≠ [] →
      tryMatchSize (x ++ (keyLit ++ ws ++ '"' :: (sgn ++ d ++ '"' :: w))) = none)
    (hw : ∀ x, x <:+ w → tryMatchSize x = none) :
    update_acf n (u ++ (keyLit ++ ws ++ '"' :: (sgn ++ d ++ '"' :: w)))
      = u ++ (keyLit ++ ws ++ '"' :: (decDigits n ++ '"' :: w)) ∧
    countMatches (u ++ (keyLit ++ ws ++ '"' :: (sgn ++ d ++ '"' :: w))) = 1 ∧
    countMatches (update_acf n (u ++ (keyLit ++ ws ++ '"' :: (sgn ++ d ++ '"' :: w)))) = 1 :=
  update_replaces_single_occ n u ws sgn d w hws hsgn hd hdall hu hw

theorem c3_witness :
    ([' '].all isPySpace = true ∧ (['1'] : List Char) ≠ [] ∧ ['1'].all isPyDigit = true) ∧
    (update_acf 5 ([] ++ (keyLit ++ [' '] ++ '"' :: ([] ++ ['1'] ++ '"' :: ([] : List Char))))
        = [] ++ (keyLit ++ [' '] ++ '"' :: (decDigits 5 ++ '"' :: [])) ∧
      countMatches ([] ++ (keyLit ++ [' '] ++ '"' :: ([] ++ ['1'] ++ '"' :: ([] : List Char)))) = 1 ∧
      countMatches (update_acf 5
        ([] ++ (keyLit ++ [' '] ++ '"' :: ([] ++ ['1'] ++ '"' :: ([] : List Char))))) = 1) :=
  ⟨⟨by decide, by decide, by decide⟩,
    c3_amended 5 [] [' '] [] ['1'] [] (by decide) (Or.inl rfl) (by decide) (by decide)
      (fun x hx hne => absurd (List.suffix_nil.1 hx) hne)
      (fun x hx => by rw [List.suffix_nil.1 hx]; exact tryMatchSize_nil)⟩

/-- C4 counterexample: the input below contains two occurrences of the
quoted key followed by a quoted integer value — the second overlaps the
closing quote of the first match — and `Patch` replaces only the first:
the second occurrence survives in the output with its old value `2`. -/
theorem c4_counterexample :
    (∃ t1, ("\"SizeOnDisk\" \"1\"SizeOnDisk\" \"2\"").data
        = keyLit ++ [' '] ++ '"' :: (['1'] ++ '"' :: t1)) ∧
    (∃ p2, ("\"SizeOnDisk\" \"1\"SizeOnDisk\" \"2\"").data
        = p2 ++ (keyLit ++ [' '] ++ '"' :: (['2'] ++ '"' :: []))) ∧
    update_acf 7 ("\"SizeOnDisk\" \"1\"SizeOnDisk\" \"2\"").data
        = ("\"SizeOnDisk\" \"7\"SizeOnDisk\" \"2\"").data ∧
    (∃ p3, ("\"SizeOnDisk\" \"7\"SizeOnDisk\" \"2\"").data
        = p3 ++ (keyLit ++ [' '] ++ '"' :: (['2'] ++ '"' :: []))) :=
  ⟨⟨("SizeOnDisk\" \"2\"").data, by decide⟩,
   ⟨("\"SizeOnDisk\" \"1").data, by decide⟩,
   by decide,
   ⟨("\"SizeOnDisk\" \"7").data, by decide⟩⟩

/-- C4 amended: the replace is global over the matches of the
left-to-right non-overlapping scan: when the text decomposes into
well-separated occurrences of the size field, every one of them — not
only the first — has its stored value (sign included) replaced by the
new value. -/
theorem c4_amended (n : Nat) (u : List Char) (l : List SizeOcc)
    (hl2 : 2 ≤ l.length) (hg : GoodOccs l)
    (hu : ∀ x, x <:+ u → x ≠ [] → tryMatchSize (x ++ buildOccs l) = none) :
    update_acf n (u ++ buildOccs l) = u ++ buildOccsNew n l := by
  cases l with
  | nil => simp at hl2
  | cons o rest =>
    have hkinf : hasSub keyLit (u ++ buildOccs (o :: rest)) = true := by
      apply hasSub_iff_found.2
      refine ⟨u, o.ws ++ '"' :: (o.sgn ++ o.ds ++ '"' :: (o.sep ++ buildOccs rest)), ?_⟩
      simp [buildOccs, List.append_assoc]
    unfold update_acf
    rw [if_pos hkinf]
    rw [subSize_append_of_skips u _ hu, subSize_buildOccs n _ hg]

theorem c4_witness :
    2 ≤ ([⟨[' '], [], ['1'], [' ']⟩, ⟨[' '], ['-'], ['2'], []⟩] : List SizeOcc).length ∧
    GoodOccs [⟨[' '], [], ['1'], [' ']⟩, ⟨[' '], ['-'], ['2'], []⟩] ∧
    update_acf 4 ([] ++ buildOccs [⟨[' '], [], ['1'], [' ']⟩, ⟨[' '], ['-'], ['2'], []⟩])
      = [] ++ buildOccsNew 4 [⟨[' '], [], ['1'], [' ']⟩, ⟨[' '], ['-'], ['2'], []⟩] := by
  have hsep1 : ∀ x, x <:+ ([' '] : List Char) → x ≠ [] →
      tryMatchSize (x ++ buildOccs [⟨[' '], ['-'], ['2'], []⟩]) = none := by
    have hall : ∀ x ∈ ([' '] : List Char).tails, x ≠ [] →
        tryMatchSize (x ++ buildOccs [⟨[' '], ['-'], ['2'], []⟩]) = none := by decide
    exact fun x hx => hall x ((List.mem_tails _ _).2 hx)
  have hsep2 : ∀ x, x <:+ ([] : List Char) → x ≠ [] →
      tryMatchSize (x ++ buildOccs ([] : List SizeOcc)) = none :=
    fun x hx hne => absurd (List.suffix_nil.1 hx) hne
  have hg : GoodOccs [⟨[' '], [], ['1'], [' ']⟩, ⟨[' '], ['-'], ['2'], []⟩] :=
    ⟨⟨by decide, Or.inl rfl, by decide, by decide, hsep1⟩,
     ⟨by decide, Or.inr rfl, by decide, by decide, hsep2⟩, trivial⟩
  exact ⟨by decide, hg, c4_amended 4 [] _ (by decide) hg
    (fun x hx hne => absurd (List.suffix_nil.1 hx) hne)⟩

/-- C5: the mapping built by `parse_acf` is exactly "the value of the
last match for the key, in scan order": later matches for the same key
overwrite earlier ones, any input (empty, unbalanced quotes, missing
braces) yields the possibly-empty mapping of whatever pairs match, and
the scan is a total function — there is no failure path. -/
theorem c5_parse_last_wins (s k : List Char) :
    dictGet (parse_acf s) k = lastVal (pairsOf s) k :=
  dictGet_parse_eq_lastVal s k

/-- C6: a stored negative value — a leading minus sign followed by
digits — is matched and replaced, sign included, by the new value. -/
theorem c6_negative_value (n : Nat) (u ws d w : List Char)
    (hws : ws.all isPySpace = true) (hd : d ≠ []) (hdall : d.all isPyDigit = true)
    (hu : ∀ x, x <:+ u → x ≠ [] →
      tryMatchSize (x ++ (keyLit ++ ws ++ '"' :: (['-'] ++ d ++ '"' :: w))) = none)
    (hw : ∀ x, x <:+ w → tryMatchSize x = none) :
    update_acf n (u ++ (keyLit ++ ws ++ '"' :: (['-'] ++ d ++ '"' :: w)))
      = u ++ (keyLit ++ ws ++ '"' :: (decDigits n ++ '"' :: w)) :=
  (update_replaces_single_occ n u ws ['-'] d w hws (Or.inr rfl) hd hdall hu hw).1

theorem c6_witness :
    (['\t'].all isPySpace = true ∧ (['1'] : List Char) ≠ [] ∧ ['1'].all isPyDigit = true) ∧
    update_acf 2048 ([] ++ (keyLit ++ ['\t'] ++ '"' :: (['-'] ++ ['1'] ++ '"' :: ([] : List Char))))
      = [] ++ (keyLit ++ ['\t'] ++ '"' :: (decDigits 2048 ++ '"' :: [])) :=
  ⟨⟨by decide, by decide, by decide⟩,
    c6_negative_value 2048 [] ['\t'] ['1'] [] (by decide) (by decide) (by decide)
      (fun x hx hne => absurd (List.suffix_nil.1 hx) hne)
      (fun x hx => by rw [List.suffix_nil.1 hx]; exact tryMatchSize_nil)⟩

/-- C7: calling the backup guard twice yields `created` then
`alreadyExists`; after both calls the backup holds the content the
original had at the first call, even though the original was rewritten
in between; the existing backup is never overwritten. -/
theorem c7_backup_twice (fs : FS) (p : String) (c c' : List Char)
    (h1 : fs p = some c) (h2 : fs (p ++ ".bak") = none) :
    ∃ fs1,
      backup_acf fs p = some (fs1, BackupOutcome.created) ∧
      fs1 (p ++ ".bak") = some c ∧
      backup_acf (setFile fs1 p c') p
        = some (setFile fs1 p c', BackupOutcome.alreadyExists) ∧
      setFile fs1 p c' (p ++ ".bak") = some c := by
  refine ⟨setFile fs (p ++ ".bak") c, ?_, ?_, ?_, ?_⟩
  · simp only [backup_acf, h2, h1]
  · unfold setFile
    rw [if_pos rfl]
  · have hval2 : setFile (setFile fs (p ++ ".bak") c) p c' (p ++ ".bak") = some c := by
      unfold setFile
      rw [if_neg (bak_ne p), if_pos rfl]
    simp only [backup_acf, hval2]
  · unfold setFile
    rw [if_neg (bak_ne p), if_pos rfl]

theorem c7_witness :
    (wfs "game.acf" = some ['x'] ∧ wfs ("game.acf" ++ ".bak") = none) ∧
    (∃ fs1,
      backup_acf wfs "game.acf" = some (fs1, BackupOutcome.created) ∧
      fs1 ("game.acf" ++ ".bak") = some ['x'] ∧
      backup_acf (setFile fs1 "game.acf" ['y']) "game.acf"
        = some (setFile fs1 "game.acf" ['y'], BackupOutcome.alreadyExists) ∧
      setFile fs1 "game.acf" ['y'] ("game.acf" ++ ".bak") = some ['x']) :=
  ⟨⟨by decide, by decide⟩,
    c7_backup_twice wfs "game.acf" ['x'] ['y'] (by decide) (by decide)⟩

/-- C8 counterexample: the batch loop of `main` has no exception
handling, so a manifest whose read or parse raises aborts the batch: in
a two-file batch whose first file raises, the healthy second file is
never processed and no report is produced for it. -/
theorem c8_counterexample :
    mainBatch [⟨none, true, true⟩, ⟨some [(installdirKey, ['g'])], true, true⟩]
      = ([], some BatchErr.ioError) :=
  rfl

/-- C8 amended: per-file isolation holds exactly for the handled skip
cases (missing or empty `installdir`, missing game folder) and for
successful updates — those continue the loop over the remaining
manifests — while a raised error (such as `IOError`) stops the batch and
leaves the remaining manifests unprocessed. -/
theorem c8_amended (f : AcfFile) (rest : List AcfFile) :
    (∀ r, processAcf f = Except.ok r →
      mainBatch (f :: rest) = (r :: (mainBatch rest).1, (mainBatch rest).2)) ∧
    (∀ e, processAcf f = Except.error e →
      mainBatch (f :: rest) = ([], some e)) := by
  constructor
  · intro r hr
    simp only [mainBatch, hr]
  · intro e he
    simp only [mainBatch, he]

theorem c8_witness :
    processAcf ⟨some [], true, true⟩ = Except.ok Report.noInstallDir ∧
    mainBatch [⟨some [], true, true⟩, ⟨some [(installdirKey, ['g'])], true, true⟩]
      = (Report.noInstallDir
          :: (mainBatch [⟨some [(installdirKey, ['g'])], true, true⟩]).1,
         (mainBatch [⟨some [(installdirKey, ['g'])], true, true⟩]).2) :=
  ⟨rfl, (c8_amended ⟨some [], true, true⟩ [⟨some [(installdirKey, ['g'])], true, true⟩]).1
    Report.noInstallDir rfl⟩

/-- C9 counterexample: on a text with no closing brace (and no size
key), `Patch` changes nothing, so the parse of the patched text does
not contain the `SizeOnDisk` field the claim promises. -/
theorem c9_counterexample :
    update_acf 5 ("\"a\" \"b\"").data = ("\"a\" \"b\"").data ∧
    dictGet (parse_acf (update_acf 5 ("\"a\" \"b\"").data)) sizeName = none :=
  ⟨by decide, by decide⟩

/-- C9 amended: when the text ends in a closing brace followed only by
whitespace (so the insertion applies) and the part before the brace
scans cleanly (every double quote belongs to a matched pair), every
field of the parse of the original is present unchanged in the parse of
the patched text, which additionally maps `SizeOnDisk` to the decimal
form of the byte count. -/
theorem c9_amended (n : Nat) (pre w : List Char)
    (hk : hasSub keyLit (pre ++ '}' :: w) = false)
    (hwall : w.all isPySpace = true)
    (hclean : scanClean pre = true) :
    (∀ k v, dictGet (parse_acf (pre ++ '}' :: w)) k = some v →
      dictGet (parse_acf (update_acf n (pre ++ '}' :: w))) k = some v) ∧
    dictGet (parse_acf (update_acf n (pre ++ '}' :: w))) sizeName
      = some (decDigits n) := by
  have hupd : update_acf n (pre ++ '}' :: w) = pre ++ insStr n := by
    unfold update_acf
    rw [if_neg (by rw [hk]; simp)]
    exact insertSize_shape n hwall pre
  have hnq : ∀ c ∈ ('}' :: w), c ≠ '"' := by
    intro c hc
    rcases List.mem_cons.1 hc with rfl | hcw
    · decide
    · exact isPySpace_ne_quote (List.all_eq_true.1 hwall c hcw)
  have hpT : pairsOf (pre ++ '}' :: w) = pairsOf pre := by
    rw [pairsOf_append pre.length pre le_rfl hclean ('}' :: w)]
    rw [pairsOf_no_quote ('}' :: w) hnq, List.append_nil]
  have hpU : pairsOf (pre ++ insStr n) = pairsOf pre ++ [(sizeName, decDigits n)] := by
    rw [pairsOf_append pre.length pre le_rfl hclean (insStr n), pairsOf_insStr]
  constructor
  · intro k v hv
    rw [dictGet_parse_eq_lastVal, hpT] at hv
    rw [hupd, dictGet_parse_eq_lastVal, hpU]
    by_cases hks : k = sizeName
    · exfalso
      subst hks
      unfold lastVal at hv
      cases hix : (List.filter (fun p => decide (p.1 = sizeName)) (pairsOf pre)).getLast? with
      | none =>
        rw [hix] at hv
        exact Option.noConfusion hv
      | some pr =>
        have hprmem : pr ∈ List.filter (fun p => decide (p.1 = sizeName)) (pairsOf pre) :=
          List.mem_of_getLast?_eq_some hix
        rw [List.mem_filter] at hprmem
        obtain ⟨hmem, hkey⟩ := hprmem
        have hkeq : pr.1 = sizeName := of_decide_eq_true hkey
        have hinf : ('"' :: (pr.1 ++ ['"'])) <:+: pre :=
          pair_mem_quoted_infix pre.length pre le_rfl pr hmem
        rw [hkeq, ← keyLit_eq_quoted_sizeName] at hinf
        have hcontra : hasSub keyLit (pre ++ '}' :: w) = true :=
          hasSub_iff_found.2 (hinf.trans (List.prefix_append pre ('}' :: w)).isInfix)
        rw [hk] at hcontra
        exact Bool.noConfusion hcontra
    · unfold lastVal at hv ⊢
      rw [List.filter_append]
      have hf2 : List.filter (fun p => decide (p.1 = k)) [(sizeName, decDigits n)] = [] := by
        have hd : (decide ((sizeName, decDigits n).1 = k)) = false := by
          simp only [decide_eq_false_iff_not]
          exact fun hc => hks hc.symm
        simp [List.filter_cons, hd]
      rw [hf2, List.append_nil]
      exact hv
  · rw [hupd, dictGet_parse_eq_lastVal, hpU]
    unfold lastVal
    rw [List.filter_append]
    have hf2 : List.filter (fun p => decide (p.1 = sizeName)) [(sizeName, decDigits n)]
        = [(sizeName, decDigits n)] := by
      simp [List.filter_cons]
    rw [hf2, List.getLast?_concat]
    rfl

theorem c9_witness :
    (hasSub keyLit (("\"a\" \"b\"\n").data ++ '}' :: []) = false ∧
      ([] : List Char).all isPySpace = true ∧
      scanClean ("\"a\" \"b\"\n").data = true) ∧
    ((∀ k v, dictGet (parse_acf (("\"a\" \"b\"\n").data ++ '}' :: [])) k = some v →
      dictGet (parse_acf (update_acf 3 (("\"a\" \"b\"\n").data ++ '}' :: []))) k = some v) ∧
     dictGet (parse_acf (update_acf 3 (("\"a\" \"b\"\n").data ++ '}' :: []))) sizeName
        = some (decDigits 3)) :=
  ⟨⟨by decide, by decide, by decide⟩,
    c9_amended 3 ("\"a\" \"b\"\n").data [] (by decide) (by decide) (by decide)⟩

/-- C10: if the quoted key occurs as a substring but no position of the
text matches the full value pattern (quoted key, optional whitespace, a
quoted optionally-signed integer), the replace branch runs and rewrites
nothing: the text is returned byte-for-byte unchanged, with no insertion
and no error. -/
theorem c10_key_without_value_unchanged (n : Nat) (T : List Char)
    (hk : hasSub keyLit T = true)
    (hfail : T.tails.all (fun u => (tryMatchSize u).isNone) = true) :
    update_acf n T = T := by
  unfold update_acf
  rw [if_pos hk]
  apply subSize_eq_self_of_allfail
  intro u hu
  exact Option.isNone_iff_eq_none.1
    (List.all_eq_true.1 hfail u ((List.mem_tails _ _).2 hu))

theorem c10_witness :
    (hasSub keyLit ("\"SizeOnDisk\" \"abc\"").data = true ∧
      (("\"SizeOnDisk\" \"abc\"").data.tails.all
        (fun u => (tryMatchSize u).isNone)) = true) ∧
    update_acf 6 ("\"SizeOnDisk\" \"abc\"").data = ("\"SizeOnDisk\" \"abc\"").data :=
  ⟨⟨by decide, by decide⟩,
    c10_key_without_value_unchanged 6 ("\"SizeOnDisk\" \"abc\"").data (by decide) (by decide)⟩

